import Mathlib

/-!
# TinyGLES (`src/tinygles/zgl.h`): clip codes and the specular buffer cache

A shallow embedding of the one function the header defines, `gl_clipcode`,
and of the specular buffer cache whose data (`GLSpecBuf`, the three
`specbuf_*` fields of `GLContext`, `MAX_SPECULAR_BUFFERS`) the header declares.

`gl_clipcode` is embedded twice.

* `gl_clipcode`, on exact rationals (`ℚ`): the reading "in exact arithmetic" of the
  properties that are stated so, with `w' = w * (1 + 1e-5)` exact.
* `gl_clipcode_f32`, on binary32 values: the C types kept, with NaN, the infinities, the
  `double` product `w1 * (1.0 + CLIP_EPSILON)` and its rounding into the `float w`.

The `int` result only ever holds a value in `0..63` and is embedded as a `Nat`.
-/

set_option maxRecDepth 100000

namespace TinyGLES

/-! ## Definitions -/

/-- The macro `CLIP_EPSILON`, `(1E-5)` in `zgl.h`. -/
def CLIP_EPSILON : ℚ := 1 / 100000

/-- The function `gl_clipcode` of `zgl.h`: `w = w1 * (1.0 + CLIP_EPSILON)`, then six
comparisons, each a C truth value `0` or `1`, shifted to its bit and or-ed. -/
def gl_clipcode (x y z w1 : ℚ) : Nat :=
  let w := w1 * (1 + CLIP_EPSILON)
  (decide (x < -w)).toNat |||
    ((decide (x > w)).toNat <<< 1) |||
    ((decide (y < -w)).toNat <<< 2) |||
    ((decide (y > w)).toNat <<< 3) |||
    ((decide (z < -w)).toNat <<< 4) |||
    ((decide (z > w)).toNat <<< 5)

/-- The mask as the specification words it: one weight per half-space test against the
guard-banded `w' = w * (1 + 1e-5)`. Only used to compare `gl_clipcode` with. -/
def clip_mask_spec (x y z w : ℚ) : Nat :=
  (if x < -(w * (1 + 1 / 100000)) then 1 else 0) +
    (if x > w * (1 + 1 / 100000) then 2 else 0) +
    (if y < -(w * (1 + 1 / 100000)) then 4 else 0) +
    (if y > w * (1 + 1 / 100000) then 8 else 0) +
    (if z < -(w * (1 + 1 / 100000)) then 16 else 0) +
    (if z > w * (1 + 1 / 100000) then 32 else 0)

/-- The type `V4` of `zmath.h` (not part of the header at hand): four `float` components,
as the `V4 pc` field of `GLVertex` uses it. -/
structure V4 where
  X : ℚ
  Y : ℚ
  Z : ℚ
  W : ℚ
  deriving DecidableEq

/-- The `clip_code` field of a `GLVertex`: `gl_clipcode` of its `pc` coordinates. -/
def V4.clip_code (pc : V4) : Nat :=
  gl_clipcode pc.X pc.Y pc.Z pc.W

/-- Bitwise or of the clip codes of a vertex list (the trivial acceptance test). -/
def clip_or (vs : List V4) : Nat :=
  vs.foldl (fun acc v => acc ||| v.clip_code) 0

/-- Bitwise and of the clip codes of a vertex list (the trivial rejection test);
the first vertex starts the accumulation, `0` stands for the empty list. -/
def clip_and (vs : List V4) : Nat :=
  match vs with
  | [] => 0
  | v :: rest => rest.foldl (fun acc u => acc &&& u.clip_code) v.clip_code

/-- Plane `i` of the guard-banded volume is violated by `p`, in the specification's
words: plane 0 `x < -w'`, 1 `x > w'`, 2 `y < -w'`, 3 `y > w'`, 4 `z < -w'`, 5 `z > w'`,
with `w' = w * (1 + 1e-5)`. -/
def violates (i : Nat) (p : V4) : Prop :=
  match i with
  | 0 => p.X < -(p.W * (1 + 1 / 100000))
  | 1 => p.X > p.W * (1 + 1 / 100000)
  | 2 => p.Y < -(p.W * (1 + 1 / 100000))
  | 3 => p.Y > p.W * (1 + 1 / 100000)
  | 4 => p.Z < -(p.W * (1 + 1 / 100000))
  | 5 => p.Z > p.W * (1 + 1 / 100000)
  | _ => False

instance (i : Nat) (p : V4) : Decidable (violates i p) := by
  unfold violates
  split <;> infer_instance

/-- Signed slack of `p` against plane `i`, negative exactly when the plane is violated:
the linear form behind each comparison of `gl_clipcode`. A device of the proofs on
interpolated points. -/
def plane_dist (i : Nat) (p : V4) : ℚ :=
  match i with
  | 0 => p.X + p.W * (1 + 1 / 100000)
  | 1 => p.W * (1 + 1 / 100000) - p.X
  | 2 => p.Y + p.W * (1 + 1 / 100000)
  | 3 => p.W * (1 + 1 / 100000) - p.Y
  | 4 => p.Z + p.W * (1 + 1 / 100000)
  | 5 => p.W * (1 + 1 / 100000) - p.Z
  | _ => 0

/-! ## Definitions: `gl_clipcode` on binary32 values

The same function with the C types kept: `float` is IEEE 754 binary32 and `double` is
binary64, operations round to nearest, ties to even. A finite binary32 value is an integer
number of units of `2^-149` (the smallest subnormal), so every step is integer arithmetic.
The two zeros compare equal and are the one value `fin 0`. -/

/-- A C `float`: NaN, the two infinities, or the finite value `n * 2^-149`. -/
inductive F32 where
  | nan : F32
  | ninf : F32
  | pinf : F32
  | fin (n : Int) : F32
  deriving DecidableEq

/-- The C comparison `a < b` on floats: false as soon as one side is NaN. -/
def F32.lt : F32 → F32 → Bool
  | .fin a, .fin b => decide (a < b)
  | .fin _, .pinf => true
  | .ninf, .fin _ => true
  | .ninf, .pinf => true
  | _, _ => false

/-- The C comparison `a <= b` on floats: false as soon as one side is NaN. -/
def F32.le : F32 → F32 → Bool
  | .fin a, .fin b => decide (a ≤ b)
  | .fin _, .pinf => true
  | .ninf, .fin _ => true
  | .ninf, .pinf => true
  | .ninf, .ninf => true
  | .pinf, .pinf => true
  | _, _ => false

/-- The C unary minus on floats, exact. -/
def F32.neg : F32 → F32
  | .nan => .nan
  | .ninf => .pinf
  | .pinf => .ninf
  | .fin n => .fin (-n)

/-- The quotient `a / b` rounded to the nearest integer, ties to even. -/
def rne_div (a b : Nat) : Nat :=
  if 2 * (a % b) < b then a / b
  else if b < 2 * (a % b) then a / b + 1
  else if a / b % 2 = 0 then a / b
  else a / b + 1

/-- The least shift `k` from `k` on with `N < 2 ^ (p + k)`, searched with `fuel` steps:
the number of low bits a `p`-bit significand has to drop. -/
def bit_shift (p N : Nat) : Nat → Nat → Nat
  | 0, k => k
  | fuel + 1, k => if N < 2 ^ (p + k) then k else bit_shift p N fuel (k + 1)

/-- The integer `N` rounded to nearest, ties to even, to at most `p` significant bits on a
grid no finer than `2 ^ kmin`: the rounding of a format with `p`-bit significands whose
smallest subnormal is `2 ^ kmin` units. -/
def round_sig (p kmin N : Nat) : Nat :=
  rne_div N (2 ^ bit_shift p N N kmin) * 2 ^ bit_shift p N N kmin

/-- The macro `CLIP_EPSILON`, `(1E-5)`, as the `double` literal it is: the binary64 value
nearest `1e-5`, in units of `2^-69` (`2^-17 ≤ 1e-5 < 2^-16`, so 53 significant bits). -/
def CLIP_EPSILON_d : Nat := rne_div (2 ^ 69) 100000

/-- The `double` expression `(1.0 + CLIP_EPSILON)` of `gl_clipcode`: the sum rounded to
binary64, in units of `2^-52` (the value lies in `[1, 2)`). -/
def ONE_PLUS_EPSILON_d : Nat := rne_div (2 ^ 69 + CLIP_EPSILON_d) (2 ^ 17)

/-- The constant `FLT_MAX`, `(2^24 - 1) * 2^104`, in units of `2^-149`. -/
def FLT_MAX_n : Nat := (2 ^ 24 - 1) * 2 ^ 253

/-- The magnitude of `w1 * (1.0 + CLIP_EPSILON)` stored in the `float w`, for `|w1|` of `a`
units: the exact product in units of `2^-201`, rounded to binary64 (53 bits; a binary32
times this constant neither overflows nor is subnormal in binary64), then rounded to
binary32 (24 bits, grid `2^-149`, that is `2^52` units), back in units of `2^-149`. -/
def guard_mag (a : Nat) : Nat :=
  round_sig 24 52 (round_sig 53 0 (a * ONE_PLUS_EPSILON_d)) / 2 ^ 52

/-- The assignment `w = w1 * (1.0 + CLIP_EPSILON)` of `gl_clipcode`: `w1` is promoted to
`double`, multiplied, and the product converted to `float`; beyond `FLT_MAX` the
conversion gives an infinity. NaN and the infinities go through unchanged. -/
def guard_w (w1 : F32) : F32 :=
  match w1 with
  | .nan => .nan
  | .ninf => .ninf
  | .pinf => .pinf
  | .fin n =>
    if FLT_MAX_n < guard_mag n.natAbs then (if n < 0 then .ninf else .pinf)
    else if n < 0 then .fin (-(guard_mag n.natAbs : Int)) else .fin (guard_mag n.natAbs)

/-- The function `gl_clipcode` of `zgl.h` on floats: the stored `w`, then the six float
comparisons (`x > w` is `w < x`), each `0` or `1`, shifted to its bit and or-ed. -/
def gl_clipcode_f32 (x y z w1 : F32) : Nat :=
  let w := guard_w w1
  (F32.lt x w.neg).toNat |||
    ((F32.lt w x).toNat <<< 1) |||
    ((F32.lt y w.neg).toNat <<< 2) |||
    ((F32.lt w y).toNat <<< 3) |||
    ((F32.lt z w.neg).toNat <<< 4) |||
    ((F32.lt w z).toNat <<< 5)

/-- The magnitude `a`, in units of `2^-149`, is one a binary32 value has: at most
`FLT_MAX` and with at most 24 significant bits. -/
def is_binary32 (a : Nat) : Prop :=
  a ≤ FLT_MAX_n ∧ a % 2 ^ bit_shift 24 a a 0 = 0

instance (a : Nat) : Decidable (is_binary32 a) := by
  unfold is_binary32
  infer_instance

/-- The value is one a C `float` can hold. -/
def F32.is_float : F32 → Prop
  | .fin n => is_binary32 n.natAbs
  | _ => True

instance (x : F32) : Decidable x.is_float := by
  cases x <;> unfold F32.is_float <;> infer_instance

/-- The real value of a finite float, none for NaN and the infinities. -/
def F32.val? : F32 → Option ℚ
  | .fin n => some ((n : ℚ) / 2 ^ 149)
  | _ => none

/-- The type `V4` of `zmath.h` with its `float` components kept as floats. -/
structure V4F where
  X : F32
  Y : F32
  Z : F32
  W : F32
  deriving DecidableEq

/-- The `clip_code` field of a `GLVertex`: `gl_clipcode` of its `pc` coordinates. -/
def V4F.clip_code (pc : V4F) : Nat :=
  gl_clipcode_f32 pc.X pc.Y pc.Z pc.W

/-- Bitwise or of the clip codes of a vertex list (the trivial acceptance test). -/
def clip_or_f32 (vs : List V4F) : Nat :=
  vs.foldl (fun acc v => acc ||| v.clip_code) 0

/-- Bitwise and of the clip codes of a vertex list (the trivial rejection test);
the first vertex starts the accumulation, `0` stands for the empty list. -/
def clip_and_f32 (vs : List V4F) : Nat :=
  match vs with
  | [] => 0
  | v :: rest => rest.foldl (fun acc u => acc &&& u.clip_code) v.clip_code

/-- Plane `i` is violated by the vertex `p`, in the specification's words (plane 0
`x < -w'`, 1 `x > w'`, 2 `y < -w'`, 3 `y > w'`, 4 `z < -w'`, 5 `z > w'`), the comparisons
being those of floats and `w'` the float stored for `w * (1 + 1e-5)`. -/
def violates_f32 (i : Nat) (p : V4F) : Prop :=
  match i with
  | 0 => F32.lt p.X (guard_w p.W).neg = true
  | 1 => F32.lt (guard_w p.W) p.X = true
  | 2 => F32.lt p.Y (guard_w p.W).neg = true
  | 3 => F32.lt (guard_w p.W) p.Y = true
  | 4 => F32.lt p.Z (guard_w p.W).neg = true
  | 5 => F32.lt (guard_w p.W) p.Z = true
  | _ => False

instance (i : Nat) (p : V4F) : Decidable (violates_f32 i p) := by
  unfold violates_f32
  split <;> infer_instance

/-- The vertex lies in the guard-banded volume in exact arithmetic, as the specification
words it: all four components have a real value and `-w' ≤ x ≤ w'`, `-w' ≤ y ≤ w'`,
`-w' ≤ z ≤ w'` with `w' = w * (1 + 1e-5)`. Only used to compare the float code with. -/
def inside_guard_exact (v : V4F) : Prop :=
  match v.X.val?, v.Y.val?, v.Z.val?, v.W.val? with
  | some x, some y, some z, some w =>
    (-(w * (1 + 1 / 100000)) ≤ x ∧ x ≤ w * (1 + 1 / 100000)) ∧
    (-(w * (1 + 1 / 100000)) ≤ y ∧ y ≤ w * (1 + 1 / 100000)) ∧
    (-(w * (1 + 1 / 100000)) ≤ z ∧ z ≤ w * (1 + 1 / 100000))
  | _, _, _, _ => False

/-! ## Definitions: the specular buffer cache -/

/-- The macro `MAX_SPECULAR_BUFFERS` of `zgl.h`: max number of specular light pow buffers. -/
def MAX_SPECULAR_BUFFERS : Nat := 8

/-- The struct `GLSpecBuf` of `zgl.h`: `int shininess_i`, `int last_used`, the table
`float buf[SPECULAR_BUFFER_SIZE+1]`; the `next` pointer is the order of the list that holds
the buffers. The stamp is embedded without a width (a counter that does not wrap). -/
structure GLSpecBuf where
  shininess_i : Int
  last_used : Nat
  buf : List ℚ
  deriving DecidableEq

/-- The three specular buffer fields of the struct `GLContext` of `zgl.h`: the linked list
`specbuf_first`, `specbuf_used_counter` and `specbuf_num_buffers`. -/
structure GLContext where
  specbuf_first : List GLSpecBuf
  specbuf_used_counter : Nat
  specbuf_num_buffers : Nat
  deriving DecidableEq

/-- Modelled from the spec: what a call of `specbuf_get_buffer` yields, the function's body
being absent from the header: the buffer returned, whether its table was computed by this
call (the instrumentation that tells a miss from a hit), and the context after the call. -/
structure SpecbufResult where
  buf : GLSpecBuf
  recomputed : Bool
  ctx : GLContext
  deriving DecidableEq

/-- Modelled from the spec: the context before any request (its initialisation is not in
the header): no buffer, counter and buffer count `0`. -/
def specbuf_init : GLContext :=
  { specbuf_first := [], specbuf_used_counter := 0, specbuf_num_buffers := 0 }

/-- Modelled from the spec: the hit path of `specbuf_get_buffer`, "updates its last used
stamp": the first buffer of the list with the key gets the stamp. -/
def specbuf_touch (key : Int) (stamp : Nat) : List GLSpecBuf → List GLSpecBuf
  | [] => []
  | b :: rest =>
    if b.shininess_i = key then { b with last_used := stamp } :: rest
    else b :: specbuf_touch key stamp rest

/-- Modelled from the spec: the eviction path of `specbuf_get_buffer`, "overwrites it with
the new key's table": the first buffer of the list whose stamp is `m` is replaced, in
place, by `fresh`. -/
def specbuf_overwrite (m : Nat) (fresh : GLSpecBuf) : List GLSpecBuf → List GLSpecBuf
  | [] => []
  | b :: rest =>
    if b.last_used = m then fresh :: rest
    else b :: specbuf_overwrite m fresh rest

/-- Modelled from the spec: `specbuf_get_buffer`, of which the header has the prototype
only (`GLSpecBuf *specbuf_get_buffer(GLContext *c, const int shininess_i, const float
shininess)`). Section 4.2: if a buffer with the key exists, it is returned and its stamp
updated from the monotonic counter; if absent and the pool is below capacity, a new buffer
is allocated and its table filled; if the pool is at capacity, the buffer with the smallest
stamp is overwritten with the new key and table. Every returned buffer is stamped with the
counter (the stamp is the "last used" stamp of the data model), and a new buffer is linked
at the head `specbuf_first`. The table fill `pow(cosine, shininess)` is the parameter
`calc_buf`. -/
def specbuf_get_buffer (calc_buf : ℚ → List ℚ) (c : GLContext) (shininess_i : Int)
    (shininess : ℚ) : SpecbufResult :=
  match c.specbuf_first.find? (fun b => b.shininess_i == shininess_i) with
  | some found =>
    { buf := { found with last_used := c.specbuf_used_counter }
      recomputed := false
      ctx :=
        { specbuf_first := specbuf_touch shininess_i c.specbuf_used_counter c.specbuf_first
          specbuf_used_counter := c.specbuf_used_counter + 1
          specbuf_num_buffers := c.specbuf_num_buffers } }
  | none =>
    let fresh : GLSpecBuf :=
      { shininess_i := shininess_i, last_used := c.specbuf_used_counter,
        buf := calc_buf shininess }
    let allocated : SpecbufResult :=
      { buf := fresh
        recomputed := true
        ctx :=
          { specbuf_first := fresh :: c.specbuf_first
            specbuf_used_counter := c.specbuf_used_counter + 1
            specbuf_num_buffers := c.specbuf_num_buffers + 1 } }
    if c.specbuf_num_buffers < MAX_SPECULAR_BUFFERS then allocated
    else
      match (c.specbuf_first.map (fun b => b.last_used)).min? with
      | none => allocated
      | some m =>
        { buf := fresh
          recomputed := true
          ctx :=
            { specbuf_first := specbuf_overwrite m fresh c.specbuf_first
              specbuf_used_counter := c.specbuf_used_counter + 1
              specbuf_num_buffers := c.specbuf_num_buffers } }

/-- A sequence of requests `(shininess_i, shininess)`, each on the context the previous
one left. -/
def specbuf_requests (calc_buf : ℚ → List ℚ) (c : GLContext) (reqs : List (Int × ℚ)) :
    GLContext :=
  reqs.foldl (fun ctx r => (specbuf_get_buffer calc_buf ctx r.1 r.2).ctx) c

/-- Invariant of the buffer list: keys pairwise distinct, stamps pairwise distinct and
below the counter, `specbuf_num_buffers` the length of the list, at most
`MAX_SPECULAR_BUFFERS` buffers. -/
def specbuf_wf (c : GLContext) : Prop :=
  (c.specbuf_first.map (fun b => b.shininess_i)).Nodup ∧
  (c.specbuf_first.map (fun b => b.last_used)).Nodup ∧
  (∀ b ∈ c.specbuf_first, b.last_used < c.specbuf_used_counter) ∧
  c.specbuf_num_buffers = c.specbuf_first.length ∧
  c.specbuf_first.length ≤ MAX_SPECULAR_BUFFERS

instance (c : GLContext) : Decidable (specbuf_wf c) := by
  unfold specbuf_wf
  infer_instance

/-- Some buffer of the context holds key `k` with stamp `s`. -/
def specbuf_entry (c : GLContext) (k : Int) (s : Nat) : Prop :=
  ∃ b ∈ c.specbuf_first, b.shininess_i = k ∧ b.last_used = s

instance (c : GLContext) (k : Int) (s : Nat) : Decidable (specbuf_entry c k s) := by
  unfold specbuf_entry
  infer_instance

/-! ## Six booleans packed into a mask -/

/-- Six truth values packed the way `gl_clipcode` packs its comparisons. -/
def bits6 (b0 b1 b2 b3 b4 b5 : Bool) : Nat :=
  b0.toNat ||| (b1.toNat <<< 1) ||| (b2.toNat <<< 2) ||| (b3.toNat <<< 3) |||
    (b4.toNat <<< 4) ||| (b5.toNat <<< 5)

theorem bits6_testBit (b0 b1 b2 b3 b4 b5 : Bool) :
    (bits6 b0 b1 b2 b3 b4 b5).testBit 0 = b0 ∧ (bits6 b0 b1 b2 b3 b4 b5).testBit 1 = b1 ∧
    (bits6 b0 b1 b2 b3 b4 b5).testBit 2 = b2 ∧ (bits6 b0 b1 b2 b3 b4 b5).testBit 3 = b3 ∧
    (bits6 b0 b1 b2 b3 b4 b5).testBit 4 = b4 ∧ (bits6 b0 b1 b2 b3 b4 b5).testBit 5 = b5 := by
  cases b0 <;> cases b1 <;> cases b2 <;> cases b3 <;> cases b4 <;> cases b5 <;> decide

theorem bits6_lt (b0 b1 b2 b3 b4 b5 : Bool) : bits6 b0 b1 b2 b3 b4 b5 < 64 := by
  cases b0 <;> cases b1 <;> cases b2 <;> cases b3 <;> cases b4 <;> cases b5 <;> decide

theorem bits6_sum (b0 b1 b2 b3 b4 b5 : Bool) :
    bits6 b0 b1 b2 b3 b4 b5 =
      b0.toNat + 2 * b1.toNat + 4 * b2.toNat + 8 * b3.toNat + 16 * b4.toNat +
        32 * b5.toNat := by
  cases b0 <;> cases b1 <;> cases b2 <;> cases b3 <;> cases b4 <;> cases b5 <;> decide

theorem bits6_eq_zero (b0 b1 b2 b3 b4 b5 : Bool) :
    bits6 b0 b1 b2 b3 b4 b5 = 0 ↔
      b0 = false ∧ b1 = false ∧ b2 = false ∧ b3 = false ∧ b4 = false ∧ b5 = false := by
  cases b0 <;> cases b1 <;> cases b2 <;> cases b3 <;> cases b4 <;> cases b5 <;> decide

theorem bits6_decide_sum (p0 p1 p2 p3 p4 p5 : Prop) [Decidable p0] [Decidable p1]
    [Decidable p2] [Decidable p3] [Decidable p4] [Decidable p5] :
    bits6 (decide p0) (decide p1) (decide p2) (decide p3) (decide p4) (decide p5) =
      (if p0 then 1 else 0) + (if p1 then 2 else 0) + (if p2 then 4 else 0) +
        (if p3 then 8 else 0) + (if p4 then 16 else 0) + (if p5 then 32 else 0) := by
  by_cases h0 : p0 <;> by_cases h1 : p1 <;> by_cases h2 : p2 <;> by_cases h3 : p3 <;>
    by_cases h4 : p4 <;> by_cases h5 : p5 <;>
    simp only [h0, h1, h2, h3, h4, h5, decide_True, decide_False, if_true, if_false] <;>
    decide

theorem gl_clipcode_eq_bits6 (x y z w : ℚ) :
    gl_clipcode x y z w =
      bits6 (decide (x < -(w * (1 + 1 / 100000)))) (decide (x > w * (1 + 1 / 100000)))
        (decide (y < -(w * (1 + 1 / 100000)))) (decide (y > w * (1 + 1 / 100000)))
        (decide (z < -(w * (1 + 1 / 100000)))) (decide (z > w * (1 + 1 / 100000))) :=
  rfl

theorem gl_clipcode_lt (x y z w : ℚ) : gl_clipcode x y z w < 64 := by
  rw [gl_clipcode_eq_bits6]
  exact bits6_lt _ _ _ _ _ _

theorem testBit_of_lt_64 {n : Nat} (hn : n < 64) {i : Nat} (hi : 6 ≤ i) :
    n.testBit i = false := by
  apply Nat.testBit_lt_two_pow
  calc n < 2 ^ 6 := hn
    _ ≤ 2 ^ i := Nat.pow_le_pow_right (by decide) hi

/-- Bit by bit, the clip code is the six comparisons. -/
theorem gl_clipcode_testBit (x y z w : ℚ) :
    ((gl_clipcode x y z w).testBit 0 = true ↔ x < -(w * (1 + 1 / 100000))) ∧
    ((gl_clipcode x y z w).testBit 1 = true ↔ x > w * (1 + 1 / 100000)) ∧
    ((gl_clipcode x y z w).testBit 2 = true ↔ y < -(w * (1 + 1 / 100000))) ∧
    ((gl_clipcode x y z w).testBit 3 = true ↔ y > w * (1 + 1 / 100000)) ∧
    ((gl_clipcode x y z w).testBit 4 = true ↔ z < -(w * (1 + 1 / 100000))) ∧
    ((gl_clipcode x y z w).testBit 5 = true ↔ z > w * (1 + 1 / 100000)) := by
  rw [gl_clipcode_eq_bits6]
  obtain ⟨h0, h1, h2, h3, h4, h5⟩ := bits6_testBit
    (decide (x < -(w * (1 + 1 / 100000)))) (decide (x > w * (1 + 1 / 100000)))
    (decide (y < -(w * (1 + 1 / 100000)))) (decide (y > w * (1 + 1 / 100000)))
    (decide (z < -(w * (1 + 1 / 100000)))) (decide (z > w * (1 + 1 / 100000)))
  rw [h0, h1, h2, h3, h4, h5]
  simp only [decide_eq_true_eq, and_self]

theorem gl_clipcode_eq_zero (x y z w : ℚ) :
    gl_clipcode x y z w = 0 ↔
      (-(w * (1 + 1 / 100000)) ≤ x ∧ x ≤ w * (1 + 1 / 100000)) ∧
      (-(w * (1 + 1 / 100000)) ≤ y ∧ y ≤ w * (1 + 1 / 100000)) ∧
      (-(w * (1 + 1 / 100000)) ≤ z ∧ z ≤ w * (1 + 1 / 100000)) := by
  rw [gl_clipcode_eq_bits6, bits6_eq_zero]
  simp only [decide_eq_false_iff_not, not_lt, gt_iff_lt]
  tauto

/-! ## Theorems on `gl_clipcode` -/

/-- C1: `gl_clipcode x y z w` is the 6-bit mask of the six half-space tests against
`w' = w * (1 + 1e-5)`: it equals the mask of the specification, bit `k` is set exactly
when test `k` holds, no bit from 6 on is set, and the value is below 64. -/
theorem gl_clipcode_is_mask (x y z w : ℚ) :
    gl_clipcode x y z w = clip_mask_spec x y z w ∧
    ((gl_clipcode x y z w).testBit 0 = true ↔ x < -(w * (1 + 1 / 100000))) ∧
    ((gl_clipcode x y z w).testBit 1 = true ↔ x > w * (1 + 1 / 100000)) ∧
    ((gl_clipcode x y z w).testBit 2 = true ↔ y < -(w * (1 + 1 / 100000))) ∧
    ((gl_clipcode x y z w).testBit 3 = true ↔ y > w * (1 + 1 / 100000)) ∧
    ((gl_clipcode x y z w).testBit 4 = true ↔ z < -(w * (1 + 1 / 100000))) ∧
    ((gl_clipcode x y z w).testBit 5 = true ↔ z > w * (1 + 1 / 100000)) ∧
    (∀ i, 6 ≤ i → (gl_clipcode x y z w).testBit i = false) ∧
    gl_clipcode x y z w < 64 := by
  refine ⟨?_, ?_⟩
  · rw [gl_clipcode_eq_bits6]
    exact bits6_decide_sum _ _ _ _ _ _
  · obtain ⟨h0, h1, h2, h3, h4, h5⟩ := gl_clipcode_testBit x y z w
    exact ⟨h0, h1, h2, h3, h4, h5, fun i hi => testBit_of_lt_64 (gl_clipcode_lt x y z w) hi,
      gl_clipcode_lt x y z w⟩

/-- C2: a point strictly inside the unit volume (`w > 0` and `|x|`, `|y|`, `|z|` all
strictly below `w`) has clip code `0`. -/
theorem gl_clipcode_inside (x y z w : ℚ) (hw : 0 < w) (hx : |x| < w) (hy : |y| < w)
    (hz : |z| < w) : gl_clipcode x y z w = 0 := by
  rw [gl_clipcode_eq_zero]
  rw [abs_lt] at hx hy hz
  have hw2 : w ≤ w * (1 + 1 / 100000) := by linarith
  refine ⟨⟨?_, ?_⟩, ⟨?_, ?_⟩, ⟨?_, ?_⟩⟩ <;> linarith [hx.1, hx.2, hy.1, hy.2, hz.1, hz.2]

theorem gl_clipcode_inside_witness :
    (0 : ℚ) < 2 ∧ |(1 : ℚ)| < 2 ∧ |(-1 : ℚ)| < 2 ∧ |(0 : ℚ)| < 2 ∧ gl_clipcode 1 (-1) 0 2 = 0 :=
  ⟨by norm_num, by norm_num, by norm_num, by norm_num,
    gl_clipcode_inside 1 (-1) 0 2 (by norm_num) (by norm_num) (by norm_num) (by norm_num)⟩

/-- C3: for `w = 1` and `x = 2`, with `y` and `z` inside the volume (`|y| ≤ 1`, `|z| ≤ 1`),
the clip code is `2`: bit 1 (`x > w'`) is set and every other bit is clear. -/
theorem gl_clipcode_x2_w1 (y z : ℚ) (hy : |y| ≤ 1) (hz : |z| ≤ 1) :
    gl_clipcode 2 y z 1 = 2 ∧ (gl_clipcode 2 y z 1).testBit 1 = true ∧
      ∀ i, i ≠ 1 → (gl_clipcode 2 y z 1).testBit i = false := by
  rw [abs_le] at hy hz
  have h0 : ¬ ((2 : ℚ) < -(1 * (1 + 1 / 100000))) := by norm_num
  have h1 : (2 : ℚ) > 1 * (1 + 1 / 100000) := by norm_num
  have h2 : ¬ (y < -(1 * (1 + 1 / 100000))) := by
    intro h; norm_num at h; linarith [hy.1]
  have h3 : ¬ (y > 1 * (1 + 1 / 100000)) := by
    intro h; norm_num at h; linarith [hy.2]
  have h4 : ¬ (z < -(1 * (1 + 1 / 100000))) := by
    intro h; norm_num at h; linarith [hz.1]
  have h5 : ¬ (z > 1 * (1 + 1 / 100000)) := by
    intro h; norm_num at h; linarith [hz.2]
  have key : gl_clipcode 2 y z 1 = 2 := by
    rw [gl_clipcode_eq_bits6, decide_eq_false h0, decide_eq_true h1, decide_eq_false h2,
      decide_eq_false h3, decide_eq_false h4, decide_eq_false h5]
    decide
  rw [key]
  refine ⟨rfl, by decide, ?_⟩
  intro i hi
  rcases i with _ | _ | i
  · decide
  · exact absurd rfl hi
  · apply Nat.testBit_lt_two_pow
    calc 2 < 2 ^ 2 := by decide
      _ ≤ 2 ^ (i + 1 + 1) := Nat.pow_le_pow_right (by decide) (by omega)

theorem gl_clipcode_x2_w1_witness :
    |(0 : ℚ)| ≤ 1 ∧ gl_clipcode 2 0 0 1 = 2 :=
  ⟨by norm_num, (gl_clipcode_x2_w1 0 0 (by norm_num) (by norm_num)).1⟩

/-! ## Folds of clip codes -/

theorem violates_iff_testBit (i : Nat) (p : V4) :
    violates i p ↔ p.clip_code.testBit i = true := by
  obtain ⟨h0, h1, h2, h3, h4, h5⟩ := gl_clipcode_testBit p.X p.Y p.Z p.W
  unfold V4.clip_code
  rcases i with _ | _ | _ | _ | _ | _ | i
  · exact h0.symm
  · exact h1.symm
  · exact h2.symm
  · exact h3.symm
  · exact h4.symm
  · exact h5.symm
  · have hf : (gl_clipcode p.X p.Y p.Z p.W).testBit (i + 1 + 1 + 1 + 1 + 1 + 1) = false :=
      testBit_of_lt_64 (gl_clipcode_lt _ _ _ _) (by omega)
    rw [hf]
    simp [violates]

theorem foldl_and_testBit (l : List V4) (a i : Nat) :
    (l.foldl (fun acc u => acc &&& u.clip_code) a).testBit i = true ↔
      a.testBit i = true ∧ ∀ u ∈ l, u.clip_code.testBit i = true := by
  induction l generalizing a with
  | nil => simp
  | cons v rest ih =>
    rw [List.foldl_cons, ih, Nat.testBit_and, Bool.and_eq_true]
    simp only [List.mem_cons, forall_eq_or_imp]
    tauto

theorem nat_or_eq_zero (a b : Nat) : a ||| b = 0 ↔ a = 0 ∧ b = 0 := by
  constructor
  · intro h
    have hb : ∀ i, (a ||| b).testBit i = false := by
      intro i
      rw [h, Nat.zero_testBit]
    simp only [Nat.testBit_or, Bool.or_eq_false_iff] at hb
    exact ⟨Nat.zero_of_testBit_eq_false fun i => (hb i).1,
      Nat.zero_of_testBit_eq_false fun i => (hb i).2⟩
  · rintro ⟨rfl, rfl⟩
    rfl

theorem foldl_or_eq_zero (l : List V4) (a : Nat) :
    l.foldl (fun acc v => acc ||| v.clip_code) a = 0 ↔
      a = 0 ∧ ∀ v ∈ l, v.clip_code = 0 := by
  induction l generalizing a with
  | nil => simp
  | cons v rest ih =>
    rw [List.foldl_cons, ih, nat_or_eq_zero]
    simp only [List.mem_cons, forall_eq_or_imp]
    tauto

/-! ## Scaling -/

theorem scale_lt_left (k a b : ℚ) (hk : 0 < k) :
    k * a < -(k * b * (1 + 1 / 100000)) ↔ a < -(b * (1 + 1 / 100000)) := by
  have e : -(k * b * (1 + 1 / 100000)) = k * (-(b * (1 + 1 / 100000))) := by ring
  rw [e, mul_lt_mul_left hk]

theorem scale_gt_left (k a b : ℚ) (hk : 0 < k) :
    k * a > k * b * (1 + 1 / 100000) ↔ a > b * (1 + 1 / 100000) := by
  have e : k * b * (1 + 1 / 100000) = k * (b * (1 + 1 / 100000)) := by ring
  rw [e, gt_iff_lt, mul_lt_mul_left hk]

/-- C10: scaling all four homogeneous coordinates by the same `k > 0` leaves the clip
code unchanged. -/
theorem gl_clipcode_scale (x y z w k : ℚ) (hk : 0 < k) :
    gl_clipcode (k * x) (k * y) (k * z) (k * w) = gl_clipcode x y z w := by
  rw [gl_clipcode_eq_bits6, gl_clipcode_eq_bits6]
  rw [decide_eq_decide.2 (scale_lt_left k x w hk), decide_eq_decide.2 (scale_gt_left k x w hk),
    decide_eq_decide.2 (scale_lt_left k y w hk), decide_eq_decide.2 (scale_gt_left k y w hk),
    decide_eq_decide.2 (scale_lt_left k z w hk), decide_eq_decide.2 (scale_gt_left k z w hk)]

theorem gl_clipcode_scale_witness :
    (0 : ℚ) < 3 ∧ gl_clipcode (3 * 2) (3 * (-5)) (3 * 0) (3 * 1) = gl_clipcode 2 (-5) 0 1 :=
  ⟨by norm_num, gl_clipcode_scale 2 (-5) 0 1 3 (by norm_num)⟩

/-! ## Interpolated points -/

theorem violates_iff_dist (i : Nat) (p : V4) : violates i p ↔ plane_dist i p < 0 := by
  rcases i with _ | _ | _ | _ | _ | _ | i <;> simp only [violates, plane_dist]
  · constructor <;> intro h <;> linarith
  · constructor <;> intro h <;> linarith
  · constructor <;> intro h <;> linarith
  · constructor <;> intro h <;> linarith
  · constructor <;> intro h <;> linarith
  · constructor <;> intro h <;> linarith
  · simp

theorem comb3_neg (a b c d1 d2 d3 : ℚ) (ha : 0 ≤ a) (hb : 0 ≤ b) (hc : 0 ≤ c)
    (hsum : a + b + c = 1) (h1 : d1 < 0) (h2 : d2 < 0) (h3 : d3 < 0) :
    a * d1 + b * d2 + c * d3 < 0 := by
  have e1 : a * d1 ≤ 0 := mul_nonpos_of_nonneg_of_nonpos ha h1.le
  have e2 : b * d2 ≤ 0 := mul_nonpos_of_nonneg_of_nonpos hb h2.le
  have e3 : c * d3 ≤ 0 := mul_nonpos_of_nonneg_of_nonpos hc h3.le
  by_cases ha0 : 0 < a
  · have := mul_neg_of_pos_of_neg ha0 h1
    linarith
  by_cases hb0 : 0 < b
  · have := mul_neg_of_pos_of_neg hb0 h2
    linarith
  have hc0 : 0 < c := by linarith
  have := mul_neg_of_pos_of_neg hc0 h3
  linarith

theorem comb3_some_neg (a b c d1 d2 d3 : ℚ) (ha : 0 ≤ a) (hb : 0 ≤ b) (hc : 0 ≤ c)
    (h : a * d1 + b * d2 + c * d3 < 0) : d1 < 0 ∨ d2 < 0 ∨ d3 < 0 := by
  by_contra hn
  push_neg at hn
  have e1 : 0 ≤ a * d1 := mul_nonneg ha hn.1
  have e2 : 0 ≤ b * d2 := mul_nonneg hb hn.2.1
  have e3 : 0 ≤ c * d3 := mul_nonneg hc hn.2.2
  linarith

theorem plane_dist_comb (a b c : ℚ) (p q s : V4) (i : Nat) :
    plane_dist i (V4.mk (a * p.X + b * q.X + c * s.X) (a * p.Y + b * q.Y + c * s.Y)
        (a * p.Z + b * q.Z + c * s.Z) (a * p.W + b * q.W + c * s.W)) =
      a * plane_dist i p + b * plane_dist i q + c * plane_dist i s := by
  rcases i with _ | _ | _ | _ | _ | _ | i <;> simp only [plane_dist] <;> ring

theorem plane_dist_lerp (t : ℚ) (p q : V4) (i : Nat) :
    plane_dist i (V4.mk ((1 - t) * p.X + t * q.X) ((1 - t) * p.Y + t * q.Y)
        ((1 - t) * p.Z + t * q.Z) ((1 - t) * p.W + t * q.W)) =
      (1 - t) * plane_dist i p + t * plane_dist i q + 0 * plane_dist i q := by
  rcases i with _ | _ | _ | _ | _ | _ | i <;> simp only [plane_dist] <;> ring

/-- Bits of a convex combination of three points, from the linearity of the slacks. -/
theorem clip_code_comb (a b c : ℚ) (p q s r : V4) (ha : 0 ≤ a) (hb : 0 ≤ b) (hc : 0 ≤ c)
    (hsum : a + b + c = 1)
    (hlin : ∀ i, plane_dist i r =
      a * plane_dist i p + b * plane_dist i q + c * plane_dist i s) (i : Nat) :
    (p.clip_code.testBit i = true → q.clip_code.testBit i = true →
      s.clip_code.testBit i = true → r.clip_code.testBit i = true) ∧
    (r.clip_code.testBit i = true →
      p.clip_code.testBit i = true ∨ q.clip_code.testBit i = true ∨
        s.clip_code.testBit i = true) := by
  simp only [← violates_iff_testBit, violates_iff_dist]
  rw [hlin i]
  exact ⟨fun h1 h2 h3 => comb3_neg a b c _ _ _ ha hb hc hsum h1 h2 h3,
    fun h => comb3_some_neg a b c _ _ _ ha hb hc h⟩

/-- C8: for `r = (1-t)*p + t*q` with `0 ≤ t ≤ 1`, every bit set in both clip codes of `p`
and `q` is set in the clip code of `r`, and every bit set in the clip code of `r` is set in
that of `p` or of `q`; so a nonzero and gives a nonzero code and a zero or gives code `0`.
The same for every point `u = a*p + b*q + c*s` of a triangle (`a, b, c ≥ 0`, `a+b+c = 1`):
rejected triangles have no point inside, accepted triangles no point outside. -/
theorem clip_code_convex (p q r : V4) (t : ℚ) (ht0 : 0 ≤ t) (ht1 : t ≤ 1)
    (hr : r = V4.mk ((1 - t) * p.X + t * q.X) ((1 - t) * p.Y + t * q.Y)
      ((1 - t) * p.Z + t * q.Z) ((1 - t) * p.W + t * q.W)) :
    (∀ i, (p.clip_code &&& q.clip_code).testBit i = true → r.clip_code.testBit i = true) ∧
    (∀ i, r.clip_code.testBit i = true → (p.clip_code ||| q.clip_code).testBit i = true) ∧
    (p.clip_code &&& q.clip_code) &&& r.clip_code = p.clip_code &&& q.clip_code ∧
    r.clip_code ||| (p.clip_code ||| q.clip_code) = p.clip_code ||| q.clip_code ∧
    (clip_and [p, q] ≠ 0 → r.clip_code ≠ 0) ∧
    (clip_or [p, q] = 0 → r.clip_code = 0) ∧
    ∀ (s u : V4) (a b c : ℚ), 0 ≤ a → 0 ≤ b → 0 ≤ c → a + b + c = 1 →
      u = V4.mk (a * p.X + b * q.X + c * s.X) (a * p.Y + b * q.Y + c * s.Y)
        (a * p.Z + b * q.Z + c * s.Z) (a * p.W + b * q.W + c * s.W) →
      (clip_and [p, q, s] ≠ 0 → u.clip_code ≠ 0) ∧
      (clip_or [p, q, s] = 0 → u.clip_code = 0) := by
  have hseg : ∀ i, (p.clip_code.testBit i = true → q.clip_code.testBit i = true →
        r.clip_code.testBit i = true) ∧
      (r.clip_code.testBit i = true →
        p.clip_code.testBit i = true ∨ q.clip_code.testBit i = true) := by
    intro i
    have h := clip_code_comb (1 - t) t 0 p q q r (by linarith) ht0 (le_refl 0) (by ring)
      (fun j => by rw [hr]; exact plane_dist_lerp t p q j) i
    exact ⟨fun h1 h2 => h.1 h1 h2 h2, fun h3 => (h.2 h3).imp_right fun h4 => h4.elim id id⟩
  have hand : ∀ i, (p.clip_code &&& q.clip_code).testBit i = true →
      r.clip_code.testBit i = true := by
    intro i hi
    rw [Nat.testBit_and, Bool.and_eq_true] at hi
    exact (hseg i).1 hi.1 hi.2
  have hor : ∀ i, r.clip_code.testBit i = true →
      (p.clip_code ||| q.clip_code).testBit i = true := by
    intro i hi
    rw [Nat.testBit_or, Bool.or_eq_true]
    exact (hseg i).2 hi
  refine ⟨hand, hor, ?_, ?_, ?_, ?_, ?_⟩
  · apply Nat.eq_of_testBit_eq
    intro i
    rw [Nat.testBit_and]
    cases hb : (p.clip_code &&& q.clip_code).testBit i
    · rfl
    · rw [hand i hb]
      rfl
  · apply Nat.eq_of_testBit_eq
    intro i
    rw [Nat.testBit_or]
    cases hb : r.clip_code.testBit i
    · rfl
    · rw [hor i hb]
      rfl
  · intro h
    obtain ⟨i, hi⟩ := Nat.ne_zero_implies_bit_true h
    intro hz
    have := hand i hi
    rw [hz, Nat.zero_testBit] at this
    exact Bool.false_ne_true this
  · intro h
    have h2 : p.clip_code ||| q.clip_code = 0 := by
      have := (foldl_or_eq_zero [p, q] 0).1 h
      rw [nat_or_eq_zero]
      exact ⟨this.2 p (by simp), this.2 q (by simp)⟩
    apply Nat.zero_of_testBit_eq_false
    intro i
    cases hb : r.clip_code.testBit i
    · rfl
    · have := hor i hb
      rw [h2, Nat.zero_testBit] at this
      exact absurd this Bool.false_ne_true
  · intro s u a b c ha hb hc hsum hu
    have htri := fun i => clip_code_comb a b c p q s u ha hb hc hsum
      (fun j => by rw [hu]; exact plane_dist_comb a b c p q s j) i
    constructor
    · intro h
      obtain ⟨i, hi⟩ := Nat.ne_zero_implies_bit_true h
      have hi2 := (foldl_and_testBit [q, s] p.clip_code i).1 hi
      intro hz
      have := (htri i).1 hi2.1 (hi2.2 q (by simp)) (hi2.2 s (by simp))
      rw [hz, Nat.zero_testBit] at this
      exact Bool.false_ne_true this
    · intro h
      have h2 := (foldl_or_eq_zero [p, q, s] 0).1 h
      apply Nat.zero_of_testBit_eq_false
      intro i
      cases hb : u.clip_code.testBit i
      · rfl
      · have h3 := (htri i).2 hb
        rw [h2.2 p (by simp), h2.2 q (by simp), h2.2 s (by simp), Nat.zero_testBit] at h3
        simp at h3

theorem clip_code_convex_witness :
    (0 : ℚ) ≤ 1 / 2 ∧ (1 / 2 : ℚ) ≤ 1 ∧
      (V4.mk 2 3 0 1).clip_code &&& (V4.mk 4 (-3) 0 1).clip_code &&& (V4.mk 3 0 0 1).clip_code =
        (V4.mk 2 3 0 1).clip_code &&& (V4.mk 4 (-3) 0 1).clip_code ∧
      (V4.mk 3 0 0 1).clip_code ||| ((V4.mk 2 3 0 1).clip_code ||| (V4.mk 4 (-3) 0 1).clip_code) =
        (V4.mk 2 3 0 1).clip_code ||| (V4.mk 4 (-3) 0 1).clip_code :=
  ⟨by norm_num, by norm_num,
    (clip_code_convex (V4.mk 2 3 0 1) (V4.mk 4 (-3) 0 1) (V4.mk 3 0 0 1) (1 / 2) (by norm_num)
      (by norm_num) (by norm_num)).2.2.1,
    (clip_code_convex (V4.mk 2 3 0 1) (V4.mk 4 (-3) 0 1) (V4.mk 3 0 0 1) (1 / 2) (by norm_num)
      (by norm_num) (by norm_num)).2.2.2.1⟩

/-! ## The binary32 code: rounding -/

theorem rne_div_ge (a b : Nat) : a / b ≤ rne_div a b := by
  unfold rne_div
  split_ifs <;> omega

theorem bit_shift_spec (p N : Nat) (fuel k0 : Nat) :
    k0 ≤ bit_shift p N fuel k0 ∧
    (bit_shift p N fuel k0 = k0 ∨ 2 ^ (p + bit_shift p N fuel k0 - 1) ≤ N) ∧
    (N < 2 ^ (p + k0 + fuel) → N < 2 ^ (p + bit_shift p N fuel k0)) := by
  induction fuel generalizing k0 with
  | zero => exact ⟨le_refl _, Or.inl rfl, fun h => h⟩
  | succ fuel ih =>
    unfold bit_shift
    by_cases h : N < 2 ^ (p + k0)
    · rw [if_pos h]
      exact ⟨le_refl _, Or.inl rfl, fun _ => h⟩
    · rw [if_neg h]
      obtain ⟨h1, h2, h3⟩ := ih (k0 + 1)
      refine ⟨by omega, Or.inr ?_, ?_⟩
      · rcases h2 with h2 | h2
        · rw [h2]
          have : p + (k0 + 1) - 1 = p + k0 := by omega
          rw [this]
          exact not_lt.1 h
        · exact h2
      · intro hf
        apply h3
        have : p + (k0 + 1) + fuel = p + k0 + (fuel + 1) := by omega
        rw [this]
        exact hf

/-- The shift chosen for `N` leaves at most `p` significant bits. -/
theorem bit_shift_lt (p kmin N : Nat) : N < 2 ^ (p + bit_shift p N N kmin) := by
  apply (bit_shift_spec p N N kmin).2.2
  calc N < 2 ^ N := Nat.lt_two_pow N
    _ ≤ 2 ^ (p + kmin + N) := Nat.pow_le_pow_right (by decide) (by omega)

/-- Rounding never falls below a representable value that the argument reaches:
round to nearest is monotone and fixes the values of the format. -/
theorem round_sig_ge (p kmin N m j : Nat) (hp : 1 ≤ p) (hm : m < 2 ^ p) (hj : kmin ≤ j)
    (ha : m * 2 ^ j ≤ N) : m * 2 ^ j ≤ round_sig p kmin N := by
  unfold round_sig
  obtain ⟨hk1, hk2, -⟩ := bit_shift_spec p N N kmin
  generalize bit_shift p N N kmin = k at hk1 hk2
  have hpos : 0 < 2 ^ k := Nat.two_pow_pos _
  have hfloor : N / 2 ^ k * 2 ^ k ≤ rne_div N (2 ^ k) * 2 ^ k :=
    Nat.mul_le_mul_right _ (rne_div_ge N (2 ^ k))
  refine le_trans ?_ hfloor
  by_cases hjk : k ≤ j
  · have e : m * 2 ^ j = m * 2 ^ (j - k) * 2 ^ k := by
      rw [Nat.mul_assoc, ← Nat.pow_add]
      congr 2
      omega
    rw [e]
    apply Nat.mul_le_mul_right
    rw [Nat.le_div_iff_mul_le hpos, ← e]
    exact ha
  · have hk : 2 ^ (p + k - 1) ≤ N := by
      rcases hk2 with h | h
      · omega
      · exact h
    have e : 2 ^ (p + k - 1) = 2 ^ (p - 1) * 2 ^ k := by
      rw [← Nat.pow_add]
      congr 1
      omega
    have h1 : m * 2 ^ j < 2 ^ (p + j) := by
      rw [Nat.pow_add]
      exact Nat.mul_lt_mul_of_pos_right hm (Nat.two_pow_pos _)
    have h2 : 2 ^ (p + j) ≤ 2 ^ (p + k - 1) := Nat.pow_le_pow_right (by decide) (by omega)
    have h3 : 2 ^ (p - 1) * 2 ^ k ≤ N / 2 ^ k * 2 ^ k := by
      apply Nat.mul_le_mul_right
      rw [Nat.le_div_iff_mul_le hpos, ← e]
      exact hk
    rw [e] at h2
    omega

/-- The two `double` constants have the significands of the IEEE bit patterns
`0x3EE4F8B588E368F1` (`1E-5`) and `0x3FF0000A7C5AC472` (`1.0 + 1E-5`). -/
theorem clip_epsilon_bits :
    CLIP_EPSILON_d = 0x14F8B588E368F1 ∧ ONE_PLUS_EPSILON_d = 0x10000A7C5AC472 := by decide

/-- The `double` constant `1.0 + CLIP_EPSILON` is not below the exact `1.00001`. -/
theorem one_plus_epsilon_ge : 100001 * 2 ^ 52 ≤ ONE_PLUS_EPSILON_d * 100000 := by decide

/-- The stored magnitude dominates every binary32 value below `a * (1 + 1e-5)`. -/
theorem guard_mag_ge (a m j : Nat) (hm : m < 2 ^ 24) (h : m * 2 ^ j * 100000 ≤ a * 100001) :
    m * 2 ^ j ≤ guard_mag a := by
  unfold guard_mag
  have hP : m * 2 ^ (j + 52) ≤ a * ONE_PLUS_EPSILON_d := by
    have h1 : m * 2 ^ (j + 52) * 100000 ≤ a * ONE_PLUS_EPSILON_d * 100000 := by
      calc m * 2 ^ (j + 52) * 100000 = m * 2 ^ j * 100000 * 2 ^ 52 := by
            rw [Nat.pow_add]
            ring
        _ ≤ a * 100001 * 2 ^ 52 := Nat.mul_le_mul_right _ h
        _ = a * (100001 * 2 ^ 52) := by ring
        _ ≤ a * (ONE_PLUS_EPSILON_d * 100000) := Nat.mul_le_mul_left _ one_plus_epsilon_ge
        _ = a * ONE_PLUS_EPSILON_d * 100000 := by ring
    exact Nat.le_of_mul_le_mul_right h1 (by decide)
  have hD := round_sig_ge 53 0 _ m (j + 52) (by decide)
    (lt_trans hm (by decide)) (Nat.zero_le _) hP
  have hW := round_sig_ge 24 52 _ m (j + 52) (by decide) hm (by omega) hD
  rw [Nat.le_div_iff_mul_le (Nat.two_pow_pos _)]
  calc m * 2 ^ j * 2 ^ 52 = m * 2 ^ (j + 52) := by rw [Nat.pow_add, Nat.mul_assoc]
    _ ≤ _ := hW

/-- A binary32 magnitude is `m * 2 ^ j` with `m` below `2 ^ 24`. -/
theorem is_binary32_repr (a : Nat) (h : is_binary32 a) :
    ∃ m j, a = m * 2 ^ j ∧ m < 2 ^ 24 := by
  obtain ⟨-, hmod⟩ := h
  have hlt := bit_shift_lt 24 0 a
  generalize bit_shift 24 a a 0 = k at hmod hlt
  refine ⟨a / 2 ^ k, k, ?_, ?_⟩
  · exact (Nat.div_mul_cancel (Nat.dvd_of_mod_eq_zero hmod)).symm
  · rw [Nat.div_lt_iff_lt_mul (Nat.two_pow_pos _), ← Nat.pow_add]
    exact hlt

theorem guard_w_of_nonneg (a : Nat) :
    guard_w (.fin (a : Int)) = .pinf ∨ guard_w (.fin (a : Int)) = .fin (guard_mag a) := by
  have hneg : ¬ ((a : Int) < 0) := not_lt.2 (Int.ofNat_nonneg a)
  unfold guard_w
  simp only [Int.natAbs_ofNat, if_neg hneg]
  by_cases h : FLT_MAX_n < guard_mag a
  · exact Or.inl (if_pos h)
  · exact Or.inr (if_neg h)

theorem guard_w_of_neg (n : Int) (hn : n < 0) :
    guard_w (.fin n) = .ninf ∨ guard_w (.fin n) = .fin (-(guard_mag n.natAbs : Int)) := by
  unfold guard_w
  simp only [if_pos hn]
  by_cases h : FLT_MAX_n < guard_mag n.natAbs
  · exact Or.inl (if_pos h)
  · exact Or.inr (if_neg h)

/-- A binary32 coordinate `c` with `|c| ≤ w * (1 + 1e-5)` (exact) passes neither test of
its axis against the stored `w`. -/
theorem axis_clear (nc : Int) (a : Nat) (hc : is_binary32 nc.natAbs)
    (h : nc.natAbs * 100000 ≤ a * 100001) :
    F32.lt (.fin nc) (guard_w (.fin (a : Int))).neg = false ∧
      F32.lt (guard_w (.fin (a : Int))) (.fin nc) = false := by
  obtain ⟨m, j, hmj, hm⟩ := is_binary32_repr _ hc
  have hg : nc.natAbs ≤ guard_mag a := by
    rw [hmj]
    rw [hmj] at h
    exact guard_mag_ge a m j hm h
  rcases guard_w_of_nonneg a with e | e <;> rw [e]
  · exact ⟨rfl, rfl⟩
  · simp only [F32.neg, F32.lt, decide_eq_false_iff_not, not_lt]
    omega

/-! ## The binary32 code: values at `w = 1`, `w = -1` and `w = 2^-149` -/

theorem guard_w_one : guard_w (.fin (2 ^ 149)) = .fin (2 ^ 149 + 84 * 2 ^ 126) := by decide

theorem guard_w_minus_one :
    guard_w (.fin (-(2 ^ 149))) = .fin (-(2 ^ 149 + 84 * 2 ^ 126)) := by decide

theorem guard_w_smallest : guard_w (.fin 1) = .fin 1 := by decide

theorem is_float_one_up : (F32.fin (2 ^ 149 + 84 * 2 ^ 126)).is_float := by decide

theorem is_float_one : (F32.fin (2 ^ 149)).is_float := by decide

/-- At `w = 1` the stored `w` is the float `0x1.0000a8p+0` (bit pattern `0x3F800054`). -/
theorem guard_w_one_bits : guard_w (.fin (2 ^ 149)) = .fin (0x800054 * 2 ^ 126) := by decide

/-! ## The binary32 code: bits and folds -/

theorem gl_clipcode_f32_eq_bits6 (x y z w : F32) :
    gl_clipcode_f32 x y z w =
      bits6 (F32.lt x (guard_w w).neg) (F32.lt (guard_w w) x)
        (F32.lt y (guard_w w).neg) (F32.lt (guard_w w) y)
        (F32.lt z (guard_w w).neg) (F32.lt (guard_w w) z) :=
  rfl

theorem gl_clipcode_f32_lt (x y z w : F32) : gl_clipcode_f32 x y z w < 64 := by
  rw [gl_clipcode_f32_eq_bits6]
  exact bits6_lt _ _ _ _ _ _

/-- Bit by bit, the float clip code is the six float comparisons against the stored `w`. -/
theorem gl_clipcode_f32_testBit (x y z w : F32) :
    (gl_clipcode_f32 x y z w).testBit 0 = F32.lt x (guard_w w).neg ∧
    (gl_clipcode_f32 x y z w).testBit 1 = F32.lt (guard_w w) x ∧
    (gl_clipcode_f32 x y z w).testBit 2 = F32.lt y (guard_w w).neg ∧
    (gl_clipcode_f32 x y z w).testBit 3 = F32.lt (guard_w w) y ∧
    (gl_clipcode_f32 x y z w).testBit 4 = F32.lt z (guard_w w).neg ∧
    (gl_clipcode_f32 x y z w).testBit 5 = F32.lt (guard_w w) z := by
  rw [gl_clipcode_f32_eq_bits6]
  exact bits6_testBit _ _ _ _ _ _

theorem gl_clipcode_f32_eq_zero (x y z w : F32) :
    gl_clipcode_f32 x y z w = 0 ↔
      (F32.lt x (guard_w w).neg = false ∧ F32.lt (guard_w w) x = false) ∧
      (F32.lt y (guard_w w).neg = false ∧ F32.lt (guard_w w) y = false) ∧
      (F32.lt z (guard_w w).neg = false ∧ F32.lt (guard_w w) z = false) := by
  rw [gl_clipcode_f32_eq_bits6, bits6_eq_zero]
  tauto

theorem violates_f32_iff_testBit (i : Nat) (p : V4F) :
    violates_f32 i p ↔ p.clip_code.testBit i = true := by
  obtain ⟨h0, h1, h2, h3, h4, h5⟩ := gl_clipcode_f32_testBit p.X p.Y p.Z p.W
  unfold V4F.clip_code
  rcases i with _ | _ | _ | _ | _ | _ | i
  · rw [h0]; rfl
  · rw [h1]; rfl
  · rw [h2]; rfl
  · rw [h3]; rfl
  · rw [h4]; rfl
  · rw [h5]; rfl
  · have hf : (gl_clipcode_f32 p.X p.Y p.Z p.W).testBit (i + 1 + 1 + 1 + 1 + 1 + 1) = false :=
      testBit_of_lt_64 (gl_clipcode_f32_lt _ _ _ _) (by omega)
    rw [hf]
    simp [violates_f32]

theorem foldl_and_testBit_f32 (l : List V4F) (a i : Nat) :
    (l.foldl (fun acc u => acc &&& u.clip_code) a).testBit i = true ↔
      a.testBit i = true ∧ ∀ u ∈ l, u.clip_code.testBit i = true := by
  induction l generalizing a with
  | nil => simp
  | cons v rest ih =>
    rw [List.foldl_cons, ih, Nat.testBit_and, Bool.and_eq_true]
    simp only [List.mem_cons, forall_eq_or_imp]
    tauto

theorem foldl_or_eq_zero_f32 (l : List V4F) (a : Nat) :
    l.foldl (fun acc v => acc ||| v.clip_code) a = 0 ↔
      a = 0 ∧ ∀ v ∈ l, v.clip_code = 0 := by
  induction l generalizing a with
  | nil => simp
  | cons v rest ih =>
    rw [List.foldl_cons, ih, nat_or_eq_zero]
    simp only [List.mem_cons, forall_eq_or_imp]
    tauto

/-- C4: for a non-empty list of vertices, the bitwise and of the clip codes the float code
computes is nonzero exactly when one of the six planes (a bit position `i < 6`) is violated
by every vertex, a plane being violated when the code's own float test against the stored
`w` holds. -/
theorem clip_and_f32_ne_zero_iff (vs : List V4F) (hne : vs ≠ []) :
    clip_and_f32 vs ≠ 0 ↔ ∃ i, i < 6 ∧ ∀ v ∈ vs, violates_f32 i v := by
  cases vs with
  | nil => exact absurd rfl hne
  | cons v rest =>
    show rest.foldl (fun acc u => acc &&& u.clip_code) v.clip_code ≠ 0 ↔ _
    constructor
    · intro h
      obtain ⟨i, hi⟩ := Nat.ne_zero_implies_bit_true h
      rw [foldl_and_testBit_f32] at hi
      have hlt : i < 6 := by
        by_contra hge
        have hf : v.clip_code.testBit i = false :=
          testBit_of_lt_64 (gl_clipcode_f32_lt _ _ _ _) (by omega)
        rw [hf] at hi
        exact Bool.false_ne_true hi.1
      refine ⟨i, hlt, ?_⟩
      intro u hu
      rw [violates_f32_iff_testBit]
      rcases List.mem_cons.1 hu with rfl | hu
      · exact hi.1
      · exact hi.2 u hu
    · rintro ⟨i, -, hall⟩ h0
      have hbit : (rest.foldl (fun acc u => acc &&& u.clip_code) v.clip_code).testBit i
          = true := by
        rw [foldl_and_testBit_f32]
        refine ⟨(violates_f32_iff_testBit i v).1 (hall v (List.mem_cons_self _ _)), ?_⟩
        intro u hu
        exact (violates_f32_iff_testBit i u).1 (hall u (List.mem_cons_of_mem _ hu))
      rw [h0, Nat.zero_testBit] at hbit
      exact Bool.false_ne_true hbit

theorem clip_and_f32_ne_zero_iff_witness :
    [V4F.mk .pinf (.fin 0) (.fin 0) (.fin (2 ^ 149)),
        V4F.mk (.fin (2 ^ 150)) .nan (.fin 0) (.fin (2 ^ 149))] ≠ [] ∧
      clip_and_f32 [V4F.mk .pinf (.fin 0) (.fin 0) (.fin (2 ^ 149)),
        V4F.mk (.fin (2 ^ 150)) .nan (.fin 0) (.fin (2 ^ 149))] ≠ 0 :=
  ⟨by simp, (clip_and_f32_ne_zero_iff _ (by simp)).2 ⟨1, by decide, by
    intro v hv
    simp only [List.mem_cons, List.mem_singleton, List.not_mem_nil, or_false] at hv
    rcases hv with rfl | rfl <;> simp only [violates_f32, guard_w_one] <;> decide⟩⟩

/-! ## The binary32 code: guard band and signs -/

theorem F32.lt_eq_false_iff (a b : F32) (ha : a ≠ .nan) (hb : b ≠ .nan) :
    F32.lt a b = false ↔ F32.le b a = true := by
  cases a <;> cases b <;> simp [F32.lt, F32.le] at ha hb ⊢

theorem guard_w_ne_nan (w : F32) (hw : w ≠ .nan) : guard_w w ≠ .nan := by
  cases w with
  | nan => exact absurd rfl hw
  | ninf => simp [guard_w]
  | pinf => simp [guard_w]
  | fin n =>
    unfold guard_w
    simp only
    split_ifs <;> simp

theorem neg_ne_nan (w : F32) (hw : w ≠ .nan) : w.neg ≠ .nan := by
  cases w <;> simp [F32.neg] at hw ⊢

theorem is_binary32_of_repr (b m j : Nat) (hb : b = m * 2 ^ j) (hm : m < 2 ^ 24)
    (hmax : b ≤ FLT_MAX_n) : is_binary32 b := by
  refine ⟨hmax, ?_⟩
  obtain ⟨-, hk, -⟩ := bit_shift_spec 24 b b 0
  generalize bit_shift 24 b b 0 = k at hk
  rcases hk with rfl | hk
  · rw [Nat.pow_zero, Nat.mod_one]
  · apply Nat.mod_eq_zero_of_dvd
    have h1 : b < 2 ^ (24 + j) := by
      rw [hb, Nat.pow_add]
      exact Nat.mul_lt_mul_of_pos_right hm (Nat.two_pow_pos _)
    have h2 : 24 + k - 1 < 24 + j := by
      rw [← Nat.pow_lt_pow_iff_right (a := 2) (by decide)]
      exact lt_of_le_of_lt hk h1
    rw [hb]
    exact Dvd.dvd.mul_left (Nat.pow_dvd_pow 2 (by omega)) m

/-- Above a binary32 value `a` from `100000` units up and below `FLT_MAX` there is a
binary32 value `b` with `a < b ≤ a * (1 + 1e-5)`: the next float. -/
theorem next_float (a : Nat) (ha : is_binary32 a) (hlo : 100000 ≤ a) (hhi : a < FLT_MAX_n) :
    ∃ b, is_binary32 b ∧ a < b ∧ b * 100000 ≤ a * 100001 := by
  obtain ⟨-, hmod⟩ := ha
  have hlt := bit_shift_lt 24 0 a
  obtain ⟨-, hk, -⟩ := bit_shift_spec 24 a a 0
  generalize bit_shift 24 a a 0 = k at hmod hlt hk
  have hpos : 0 < 2 ^ k := Nat.two_pow_pos _
  have hdiv : a / 2 ^ k * 2 ^ k = a := Nat.div_mul_cancel (Nat.dvd_of_mod_eq_zero hmod)
  have hm : a / 2 ^ k < 2 ^ 24 := by
    rw [Nat.div_lt_iff_lt_mul hpos, ← Nat.pow_add]
    exact hlt
  have hb : a + 2 ^ k = (a / 2 ^ k + 1) * 2 ^ k := by
    rw [Nat.add_mul, hdiv, Nat.one_mul]
  have hk253 : k ≤ 253 := by
    rcases hk with rfl | hk
    · omega
    · have h1 : a < 2 ^ 24 * 2 ^ 253 := by
        unfold FLT_MAX_n at hhi
        have : (2 ^ 24 - 1) * 2 ^ 253 ≤ 2 ^ 24 * 2 ^ 253 :=
          Nat.mul_le_mul_right _ (by decide)
        omega
      rw [← Nat.pow_add] at h1
      have h2 : 24 + k - 1 < 24 + 253 := by
        rw [← Nat.pow_lt_pow_iff_right (a := 2) (by decide)]
        exact lt_of_le_of_lt hk h1
      omega
  have hmax : a + 2 ^ k ≤ FLT_MAX_n := by
    rw [hb]
    unfold FLT_MAX_n
    by_cases hk2 : k = 253
    · subst hk2
      apply Nat.mul_le_mul_right
      have h1 : a / 2 ^ 253 * 2 ^ 253 < (2 ^ 24 - 1) * 2 ^ 253 := by
        rw [hdiv]
        exact hhi
      have := Nat.lt_of_mul_lt_mul_right h1
      omega
    · have h1 : (a / 2 ^ k + 1) * 2 ^ k ≤ 2 ^ 24 * 2 ^ k := Nat.mul_le_mul_right _ hm
      have h2 : 2 ^ 24 * 2 ^ k ≤ 2 ^ 24 * 2 ^ 252 :=
        Nat.mul_le_mul_left _ (Nat.pow_le_pow_right (by decide) (by omega))
      have h3 : 2 ^ 24 * 2 ^ 252 ≤ (2 ^ 24 - 1) * 2 ^ 253 := by decide
      omega
  have hrepr : is_binary32 (a + 2 ^ k) := by
    by_cases hcarry : a / 2 ^ k + 1 < 2 ^ 24
    · exact is_binary32_of_repr _ _ k hb hcarry hmax
    · have e : a / 2 ^ k + 1 = 2 ^ 24 := by omega
      refine is_binary32_of_repr _ 1 (24 + k) ?_ (by decide) hmax
      rw [hb, e, Nat.one_mul, Nat.pow_add]
  refine ⟨a + 2 ^ k, hrepr, by omega, ?_⟩
  have hstep : 2 ^ k * 100000 ≤ a := by
    rcases hk with rfl | hk
    · simpa using hlo
    · have e : 2 ^ (24 + k - 1) = 2 ^ k * 2 ^ 23 := by
        rw [← Nat.pow_add]
        congr 1
        omega
      rw [e] at hk
      have : 2 ^ k * 100000 ≤ 2 ^ k * 2 ^ 23 := Nat.mul_le_mul_left _ (by decide)
      omega
  omega

/-- From the exact inequality `|c| ≤ w * (1 + 1e-5)` on the values to the units. -/
theorem units_of_val_le (nc nw : Int)
    (h : |(nc : ℚ) / 2 ^ 149| ≤ (nw : ℚ) / 2 ^ 149 * (1 + 1 / 100000)) :
    0 ≤ nw ∧ nc.natAbs * 100000 ≤ nw.natAbs * 100001 := by
  have hpos : (0 : ℚ) < 2 ^ 149 := by positivity
  rw [abs_div, abs_of_pos hpos, div_le_iff₀ hpos] at h
  have h2 : |(nc : ℚ)| * 100000 ≤ (nw : ℚ) * 100001 := by
    have e : (nw : ℚ) / 2 ^ 149 * (1 + 1 / 100000) * 2 ^ 149 = (nw : ℚ) * (100001 / 100000) := by
      field_simp
      ring
    rw [e] at h
    linarith
  have h3 : |nc| * 100000 ≤ nw * 100001 := by exact_mod_cast h2
  have h4 : 0 ≤ nw := by
    have := abs_nonneg nc
    omega
  refine ⟨h4, ?_⟩
  zify
  rw [abs_of_nonneg h4]
  exact h3

theorem axis_clear_val (x w : F32) (hx : x.is_float) (qx qw : ℚ) (hxv : x.val? = some qx)
    (hwv : w.val? = some qw) (h : |qx| ≤ qw * (1 + 1 / 100000)) :
    F32.lt x (guard_w w).neg = false ∧ F32.lt (guard_w w) x = false := by
  cases x with
  | fin nc =>
    cases w with
    | fin nw =>
      simp only [F32.val?, Option.some.injEq] at hxv hwv
      subst hxv hwv
      obtain ⟨hnn, hu⟩ := units_of_val_le nc nw h
      obtain ⟨a, rfl⟩ := Int.eq_ofNat_of_zero_le hnn
      exact axis_clear nc a hx (by simpa using hu)
    | _ => simp [F32.val?] at hwv
  | _ => simp [F32.val?] at hxv

theorem axis_clear_plane (x w : F32) (hwf : w.is_float) (hw : F32.le (.fin 0) w = true)
    (hx : x = w ∨ x = w.neg) :
    F32.lt x (guard_w w).neg = false ∧ F32.lt (guard_w w) x = false := by
  cases w with
  | nan => simp [F32.le] at hw
  | ninf => simp [F32.le] at hw
  | pinf => rcases hx with rfl | rfl <;> exact ⟨rfl, rfl⟩
  | fin nw =>
    have hnn : 0 ≤ nw := by simpa [F32.le] using hw
    obtain ⟨a, rfl⟩ := Int.eq_ofNat_of_zero_le hnn
    have ha : is_binary32 a := by simpa [F32.is_float] using hwf
    rcases hx with rfl | rfl
    · exact axis_clear _ a (by simpa using ha) (by simp; omega)
    · exact axis_clear _ a (by simpa using ha) (by simp; omega)

theorem pair_set (x w : F32) (hx : x ≠ .nan) (hw : F32.lt w (.fin 0) = true) :
    F32.lt x (guard_w w).neg = true ∨ F32.lt (guard_w w) x = true := by
  cases w with
  | nan => simp [F32.lt] at hw
  | pinf => simp [F32.lt] at hw
  | ninf => cases x <;> simp [guard_w, F32.neg, F32.lt] at hx ⊢
  | fin n =>
    have hn : n < 0 := by simpa [F32.lt] using hw
    have hg : 1 ≤ guard_mag n.natAbs := by
      have := guard_mag_ge n.natAbs 1 0 (by decide) (by omega)
      simpa using this
    rcases guard_w_of_neg n hn with e | e <;> rw [e]
    · cases x <;> simp [F32.neg, F32.lt] at hx ⊢
    · cases x with
      | nan => exact absurd rfl hx
      | ninf => exact Or.inl rfl
      | pinf => exact Or.inr rfl
      | fin c =>
        simp only [F32.neg, F32.lt, decide_eq_true_eq]
        omega

theorem pair_not_both (x w : F32) (hw : F32.le (.fin 0) w = true) :
    ¬ (F32.lt x (guard_w w).neg = true ∧ F32.lt (guard_w w) x = true) := by
  cases w with
  | nan => simp [F32.le] at hw
  | ninf => simp [F32.le] at hw
  | pinf => cases x <;> simp [guard_w, F32.neg, F32.lt]
  | fin n =>
    have hnn : 0 ≤ n := by simpa [F32.le] using hw
    obtain ⟨a, rfl⟩ := Int.eq_ofNat_of_zero_le hnn
    rcases guard_w_of_nonneg a with e | e <;> rw [e]
    · cases x <;> simp [F32.neg, F32.lt]
    · cases x with
      | fin c =>
        simp only [F32.neg, F32.lt, decide_eq_true_eq]
        omega
      | _ => simp [F32.neg, F32.lt]

/-- C5, the claim refuted on the float code. At `w = 1` the stored `w` is the binary32
value `0x1.0000a8p+0`, above `1.00001`: the vertex `(0x1.0000a8p+0, 0, 0, 1)` has code `0`
although `x > w * (1 + 1e-5)`. And the vertex `(NaN, 0, 0, 1)` has code `0` although
`-w' ≤ x ≤ w'` fails for a NaN. -/
theorem clip_or_exact_counterexample :
    ((F32.fin (2 ^ 149 + 84 * 2 ^ 126)).is_float ∧ (F32.fin (2 ^ 149)).is_float ∧
      clip_or_f32 [V4F.mk (.fin (2 ^ 149 + 84 * 2 ^ 126)) (.fin 0) (.fin 0) (.fin (2 ^ 149))]
        = 0 ∧
      ¬ inside_guard_exact
        (V4F.mk (.fin (2 ^ 149 + 84 * 2 ^ 126)) (.fin 0) (.fin 0) (.fin (2 ^ 149)))) ∧
    (clip_or_f32 [V4F.mk .nan (.fin 0) (.fin 0) (.fin (2 ^ 149))] = 0 ∧
      ¬ inside_guard_exact (V4F.mk .nan (.fin 0) (.fin 0) (.fin (2 ^ 149)))) := by
  refine ⟨⟨is_float_one_up, is_float_one, ?_, ?_⟩, ?_, ?_⟩
  · show 0 ||| gl_clipcode_f32 _ _ _ _ = 0
    rw [gl_clipcode_f32_eq_bits6, guard_w_one]
    decide
  · simp only [inside_guard_exact, F32.val?]
    norm_num
  · show 0 ||| gl_clipcode_f32 _ _ _ _ = 0
    rw [gl_clipcode_f32_eq_bits6, guard_w_one]
    decide
  · simp [inside_guard_exact, F32.val?]

/-- C5 as amended: for every list of vertices none of whose components is NaN, the bitwise
or of the clip codes is zero exactly when every vertex satisfies `-w' ≤ x ≤ w'`,
`-w' ≤ y ≤ w'` and `-w' ≤ z ≤ w'` as float comparisons, `w'` being the binary32 value the
code stores for `w * (1 + 1e-5)`. -/
theorem clip_or_f32_eq_zero_iff (vs : List V4F)
    (hnan : ∀ v ∈ vs, v.X ≠ .nan ∧ v.Y ≠ .nan ∧ v.Z ≠ .nan ∧ v.W ≠ .nan) :
    clip_or_f32 vs = 0 ↔
      ∀ v ∈ vs,
        (F32.le (guard_w v.W).neg v.X = true ∧ F32.le v.X (guard_w v.W) = true) ∧
        (F32.le (guard_w v.W).neg v.Y = true ∧ F32.le v.Y (guard_w v.W) = true) ∧
        (F32.le (guard_w v.W).neg v.Z = true ∧ F32.le v.Z (guard_w v.W) = true) := by
  have key : ∀ v ∈ vs, (v.clip_code = 0 ↔
      (F32.le (guard_w v.W).neg v.X = true ∧ F32.le v.X (guard_w v.W) = true) ∧
      (F32.le (guard_w v.W).neg v.Y = true ∧ F32.le v.Y (guard_w v.W) = true) ∧
      (F32.le (guard_w v.W).neg v.Z = true ∧ F32.le v.Z (guard_w v.W) = true)) := by
    intro v hv
    obtain ⟨hx, hy, hz, hw⟩ := hnan v hv
    have hg := guard_w_ne_nan v.W hw
    have hgn := neg_ne_nan _ hg
    unfold V4F.clip_code
    rw [gl_clipcode_f32_eq_zero,
      F32.lt_eq_false_iff _ _ hx hgn, F32.lt_eq_false_iff _ _ hg hx,
      F32.lt_eq_false_iff _ _ hy hgn, F32.lt_eq_false_iff _ _ hg hy,
      F32.lt_eq_false_iff _ _ hz hgn, F32.lt_eq_false_iff _ _ hg hz]
  unfold clip_or_f32
  rw [foldl_or_eq_zero_f32]
  constructor
  · rintro ⟨-, h⟩ v hv
    exact (key v hv).1 (h v hv)
  · intro h
    exact ⟨rfl, fun v hv => (key v hv).2 (h v hv)⟩

theorem clip_or_f32_eq_zero_iff_witness :
    clip_or_f32 [V4F.mk (.fin (2 ^ 149 + 84 * 2 ^ 126)) (.fin 0) (.fin (-(2 ^ 149)))
      (.fin (2 ^ 149))] = 0 :=
  (clip_or_f32_eq_zero_iff
    [V4F.mk (.fin (2 ^ 149 + 84 * 2 ^ 126)) (.fin 0) (.fin (-(2 ^ 149))) (.fin (2 ^ 149))]
    (by simp)).2 (by
      intro v hv
      rw [List.mem_singleton] at hv
      subst hv
      simp only [guard_w_one]
      decide)

/-- C9, the claim refuted on the float code: with `w = -1` and NaN coordinates every
comparison of `gl_clipcode` is false, so the code is `0`; with only `x` NaN the code is `60`,
neither bit of the x pair set. -/
theorem negative_w_nan_counterexample :
    F32.lt (.fin (-(2 ^ 149))) (.fin 0) = true ∧
      gl_clipcode_f32 .nan .nan .nan (.fin (-(2 ^ 149))) = 0 ∧
      gl_clipcode_f32 .nan (.fin 0) (.fin 0) (.fin (-(2 ^ 149))) = 60 := by
  refine ⟨by decide, ?_, ?_⟩
  · rw [gl_clipcode_f32_eq_bits6, guard_w_minus_one]
    decide
  · rw [gl_clipcode_f32_eq_bits6, guard_w_minus_one]
    decide

/-- C9 as amended: for every `w < 0` and all `x`, `y`, `z` none of which is NaN, the float
clip code is nonzero and at least one bit of each axis pair is set; both bits of a pair are
set together at `x = 0`, `w = -1`; with `w ≥ 0` the two bits of a pair are never set
together, whatever the coordinates. -/
theorem negative_w_outside_f32 :
    (∀ x y z w : F32, x ≠ .nan → y ≠ .nan → z ≠ .nan → F32.lt w (.fin 0) = true →
      gl_clipcode_f32 x y z w ≠ 0 ∧
      ((gl_clipcode_f32 x y z w).testBit 0 = true ∨ (gl_clipcode_f32 x y z w).testBit 1 = true) ∧
      ((gl_clipcode_f32 x y z w).testBit 2 = true ∨ (gl_clipcode_f32 x y z w).testBit 3 = true) ∧
      ((gl_clipcode_f32 x y z w).testBit 4 = true ∨
        (gl_clipcode_f32 x y z w).testBit 5 = true)) ∧
    (F32.lt (.fin (-(2 ^ 149))) (.fin 0) = true ∧
      (gl_clipcode_f32 (.fin 0) (.fin 0) (.fin 0) (.fin (-(2 ^ 149)))).testBit 0 = true ∧
      (gl_clipcode_f32 (.fin 0) (.fin 0) (.fin 0) (.fin (-(2 ^ 149)))).testBit 1 = true) ∧
    (∀ x y z w : F32, F32.le (.fin 0) w = true →
      ¬ ((gl_clipcode_f32 x y z w).testBit 0 = true ∧
        (gl_clipcode_f32 x y z w).testBit 1 = true) ∧
      ¬ ((gl_clipcode_f32 x y z w).testBit 2 = true ∧
        (gl_clipcode_f32 x y z w).testBit 3 = true) ∧
      ¬ ((gl_clipcode_f32 x y z w).testBit 4 = true ∧
        (gl_clipcode_f32 x y z w).testBit 5 = true)) := by
  refine ⟨?_, ?_, ?_⟩
  · intro x y z w hx hy hz hw
    obtain ⟨h0, h1, h2, h3, h4, h5⟩ := gl_clipcode_f32_testBit x y z w
    have px := pair_set x w hx hw
    rw [← h0, ← h1] at px
    have py := pair_set y w hy hw
    rw [← h2, ← h3] at py
    have pz := pair_set z w hz hw
    rw [← h4, ← h5] at pz
    refine ⟨?_, px, py, pz⟩
    intro h
    rw [h, Nat.zero_testBit, Nat.zero_testBit] at px
    rcases px with h | h <;> exact Bool.false_ne_true h
  · obtain ⟨h0, h1, -⟩ :=
      gl_clipcode_f32_testBit (.fin 0) (.fin 0) (.fin 0) (.fin (-(2 ^ 149)))
    rw [h0, h1, guard_w_minus_one]
    decide
  · intro x y z w hw
    obtain ⟨h0, h1, h2, h3, h4, h5⟩ := gl_clipcode_f32_testBit x y z w
    rw [h0, h1, h2, h3, h4, h5]
    exact ⟨pair_not_both x w hw, pair_not_both y w hw, pair_not_both z w hw⟩

theorem negative_w_outside_f32_witness :
    F32.lt (.fin (-(2 ^ 149))) (.fin 0) = true ∧
      gl_clipcode_f32 (.fin 5) .pinf .ninf (.fin (-(2 ^ 149))) ≠ 0 ∧
      ¬ ((gl_clipcode_f32 .pinf .nan (.fin 0) (.fin 7)).testBit 0 = true ∧
        (gl_clipcode_f32 .pinf .nan (.fin 0) (.fin 7)).testBit 1 = true) :=
  ⟨by decide,
    (negative_w_outside_f32.1 (.fin 5) .pinf .ninf (.fin (-(2 ^ 149))) (by decide) (by decide)
      (by decide) (by decide)).1,
    (negative_w_outside_f32.2.2 .pinf .nan (.fin 0) (.fin 7) (by decide)).1⟩

theorem is_binary32_zero : is_binary32 0 := by decide

/-- C6, the claim refuted on the float code: at the smallest positive float `w = 2^-149`
the stored `w` is `w` itself, so every float `c > w` has the bit `x > w` set: no point
outside the unit volume is coded as inside. And above `w = FLT_MAX` there is no float with
a real value at all. -/
theorem guard_band_tiny_counterexample :
    ((F32.fin 1).is_float ∧ F32.lt (.fin 0) (.fin 1) = true ∧ guard_w (.fin 1) = .fin 1 ∧
      ¬ ∃ c : F32, F32.lt (.fin 1) c = true ∧
        (gl_clipcode_f32 c (.fin 0) (.fin 0) (.fin 1)).testBit 1 = false) ∧
    ¬ ∃ c : F32, c.is_float ∧ F32.lt (.fin (FLT_MAX_n : Int)) c = true ∧
      c.val?.isSome = true := by
  refine ⟨⟨by decide, by decide, guard_w_smallest, ?_⟩, ?_⟩
  · rintro ⟨c, hc, hb⟩
    rw [(gl_clipcode_f32_testBit c (.fin 0) (.fin 0) (.fin 1)).2.1, guard_w_smallest, hc] at hb
    exact Bool.noConfusion hb
  · rintro ⟨c, hf, hlt, hv⟩
    cases c with
    | fin n =>
      have h1 : (FLT_MAX_n : Int) < n := by simpa [F32.lt] using hlt
      have h2 : n.natAbs ≤ FLT_MAX_n := hf.1
      omega
    | _ => simp [F32.lt, F32.val?] at hlt hv

/-- C6 as amended: for binary32 `x`, `y`, `z` and `w ≥ 0`, a coordinate equal to `w` or
`-w` has neither bit of its axis set, and every coordinate `c` with
`|c| ≤ w * (1 + 1e-5)` (exact) leaves both bits of its axis clear; and for every `w` from
`100000 * 2^-149` up and below `FLT_MAX` some float `c` with `w < c ≤ w * (1 + 1e-5)`,
strictly outside the unit volume, is still coded as inside. -/
theorem guard_band_f32 (x y z w : F32) (hx : x.is_float) (hy : y.is_float) (hz : z.is_float)
    (hwf : w.is_float) (hw : F32.le (.fin 0) w = true) :
    ((x = w ∨ x = w.neg) →
      (gl_clipcode_f32 x y z w).testBit 0 = false ∧
        (gl_clipcode_f32 x y z w).testBit 1 = false) ∧
    ((y = w ∨ y = w.neg) →
      (gl_clipcode_f32 x y z w).testBit 2 = false ∧
        (gl_clipcode_f32 x y z w).testBit 3 = false) ∧
    ((z = w ∨ z = w.neg) →
      (gl_clipcode_f32 x y z w).testBit 4 = false ∧
        (gl_clipcode_f32 x y z w).testBit 5 = false) ∧
    (∀ qx qw : ℚ, x.val? = some qx → w.val? = some qw → |qx| ≤ qw * (1 + 1 / 100000) →
      (gl_clipcode_f32 x y z w).testBit 0 = false ∧
        (gl_clipcode_f32 x y z w).testBit 1 = false) ∧
    (∀ qy qw : ℚ, y.val? = some qy → w.val? = some qw → |qy| ≤ qw * (1 + 1 / 100000) →
      (gl_clipcode_f32 x y z w).testBit 2 = false ∧
        (gl_clipcode_f32 x y z w).testBit 3 = false) ∧
    (∀ qz qw : ℚ, z.val? = some qz → w.val? = some qw → |qz| ≤ qw * (1 + 1 / 100000) →
      (gl_clipcode_f32 x y z w).testBit 4 = false ∧
        (gl_clipcode_f32 x y z w).testBit 5 = false) ∧
    (F32.le (.fin 100000) w = true → F32.lt w (.fin (FLT_MAX_n : Int)) = true →
      ∃ c : F32, c.is_float ∧ F32.lt w c = true ∧
        (∃ qc qw : ℚ, c.val? = some qc ∧ w.val? = some qw ∧ qc ≤ qw * (1 + 1 / 100000)) ∧
        gl_clipcode_f32 c (.fin 0) (.fin 0) w = 0 ∧ gl_clipcode_f32 (.fin 0) c (.fin 0) w = 0 ∧
        gl_clipcode_f32 (.fin 0) (.fin 0) c w = 0 ∧ gl_clipcode_f32 c c c w = 0) := by
  obtain ⟨h0, h1, h2, h3, h4, h5⟩ := gl_clipcode_f32_testBit x y z w
  rw [h0, h1, h2, h3, h4, h5]
  refine ⟨axis_clear_plane x w hwf hw, axis_clear_plane y w hwf hw, axis_clear_plane z w hwf hw,
    fun qx qw e1 e2 h => axis_clear_val x w hx qx qw e1 e2 h,
    fun qy qw e1 e2 h => axis_clear_val y w hy qy qw e1 e2 h,
    fun qz qw e1 e2 h => axis_clear_val z w hz qz qw e1 e2 h, ?_⟩
  intro hlo hhi
  cases w with
  | nan => simp [F32.le] at hw
  | ninf => simp [F32.le] at hw
  | pinf => simp [F32.lt] at hhi
  | fin nw =>
    have hnn : 0 ≤ nw := by simpa [F32.le] using hw
    obtain ⟨a, rfl⟩ := Int.eq_ofNat_of_zero_le hnn
    have ha : is_binary32 a := by simpa [F32.is_float] using hwf
    have hlo2 : 100000 ≤ a := by
      have : (100000 : Int) ≤ (a : Int) := by simpa [F32.le] using hlo
      exact_mod_cast this
    have hhi2 : a < FLT_MAX_n := by
      have : (a : Int) < (FLT_MAX_n : Int) := by simpa [F32.lt] using hhi
      exact_mod_cast this
    obtain ⟨b, hb, hab, hble⟩ := next_float a ha hlo2 hhi2
    have hc := axis_clear (b : Int) a (by simpa using hb) (by simpa using hble)
    have hzero := axis_clear (0 : Int) a (by simpa using is_binary32_zero) (by simp)
    refine ⟨.fin (b : Int), by simpa [F32.is_float] using hb, ?_, ?_, ?_, ?_, ?_, ?_⟩
    · simp only [F32.lt, decide_eq_true_eq]
      exact_mod_cast hab
    · refine ⟨(b : ℚ) / 2 ^ 149, (a : ℚ) / 2 ^ 149, by simp [F32.val?], by simp [F32.val?], ?_⟩
      have hq : (b : ℚ) * 100000 ≤ (a : ℚ) * 100001 := by exact_mod_cast hble
      have hpos : (0 : ℚ) < 2 ^ 149 := by positivity
      rw [div_le_iff₀ hpos]
      have e : (a : ℚ) / 2 ^ 149 * (1 + 1 / 100000) * 2 ^ 149 = (a : ℚ) * (100001 / 100000) := by
        field_simp
        ring
      rw [e]
      linarith
    · rw [gl_clipcode_f32_eq_zero]
      exact ⟨hc, hzero, hzero⟩
    · rw [gl_clipcode_f32_eq_zero]
      exact ⟨hzero, hc, hzero⟩
    · rw [gl_clipcode_f32_eq_zero]
      exact ⟨hzero, hzero, hc⟩
    · rw [gl_clipcode_f32_eq_zero]
      exact ⟨hc, hc, hc⟩

theorem guard_band_f32_witness :
    F32.le (.fin 0) (.fin (2 ^ 149)) = true ∧
      ((gl_clipcode_f32 (.fin (2 ^ 149)) (.fin (-(2 ^ 149))) (.fin (2 ^ 149 + 84 * 2 ^ 126))
          (.fin (2 ^ 149))).testBit 0 = false ∧
        (gl_clipcode_f32 (.fin (2 ^ 149)) (.fin (-(2 ^ 149))) (.fin (2 ^ 149 + 84 * 2 ^ 126))
          (.fin (2 ^ 149))).testBit 1 = false) ∧
      ∃ c : F32, c.is_float ∧ F32.lt (.fin (2 ^ 149)) c = true ∧
        (∃ qc qw : ℚ, c.val? = some qc ∧ (F32.fin (2 ^ 149)).val? = some qw ∧
          qc ≤ qw * (1 + 1 / 100000)) ∧
        gl_clipcode_f32 c (.fin 0) (.fin 0) (.fin (2 ^ 149)) = 0 ∧
        gl_clipcode_f32 (.fin 0) c (.fin 0) (.fin (2 ^ 149)) = 0 ∧
        gl_clipcode_f32 (.fin 0) (.fin 0) c (.fin (2 ^ 149)) = 0 ∧
        gl_clipcode_f32 c c c (.fin (2 ^ 149)) = 0 :=
  ⟨by decide,
    (guard_band_f32 (.fin (2 ^ 149)) (.fin (-(2 ^ 149))) (.fin (2 ^ 149 + 84 * 2 ^ 126))
      (.fin (2 ^ 149)) (by decide) (by decide) (by decide) (by decide) (by decide)).1
      (Or.inl rfl),
    (guard_band_f32 (.fin (2 ^ 149)) (.fin (-(2 ^ 149))) (.fin (2 ^ 149 + 84 * 2 ^ 126))
      (.fin (2 ^ 149)) (by decide) (by decide) (by decide) (by decide)
      (by decide)).2.2.2.2.2.2 (by decide) (by decide)⟩

/-! ## The specular buffer cache -/

theorem specbuf_touch_perm (key : Int) (stamp : Nat) (l : List GLSpecBuf)
    (h : ∃ b ∈ l, b.shininess_i = key) :
    ∃ b rest, l.Perm (b :: rest) ∧ b.shininess_i = key ∧
      (specbuf_touch key stamp l).Perm ({ b with last_used := stamp } :: rest) := by
  induction l with
  | nil =>
    obtain ⟨b, hb, -⟩ := h
    exact absurd hb (List.not_mem_nil b)
  | cons a tl ih =>
    by_cases ha : a.shininess_i = key
    · refine ⟨a, tl, List.Perm.refl _, ha, ?_⟩
      simp only [specbuf_touch, if_pos ha]
      exact List.Perm.refl _
    · have h2 : ∃ b ∈ tl, b.shininess_i = key := by
        obtain ⟨b, hb, hk⟩ := h
        rcases List.mem_cons.1 hb with rfl | hb
        · exact absurd hk ha
        · exact ⟨b, hb, hk⟩
      obtain ⟨b, rest, hp, hk, hp2⟩ := ih h2
      refine ⟨b, a :: rest, ?_, hk, ?_⟩
      · exact (List.Perm.cons a hp).trans (List.Perm.swap b a rest)
      · simp only [specbuf_touch, if_neg ha]
        exact (List.Perm.cons a hp2).trans (List.Perm.swap _ a rest)

theorem specbuf_overwrite_perm (m : Nat) (fresh : GLSpecBuf) (l : List GLSpecBuf)
    (h : ∃ b ∈ l, b.last_used = m) :
    ∃ b rest, l.Perm (b :: rest) ∧ b.last_used = m ∧
      (specbuf_overwrite m fresh l).Perm (fresh :: rest) := by
  induction l with
  | nil =>
    obtain ⟨b, hb, -⟩ := h
    exact absurd hb (List.not_mem_nil b)
  | cons a tl ih =>
    by_cases ha : a.last_used = m
    · refine ⟨a, tl, List.Perm.refl _, ha, ?_⟩
      simp only [specbuf_overwrite, if_pos ha]
      exact List.Perm.refl _
    · have h2 : ∃ b ∈ tl, b.last_used = m := by
        obtain ⟨b, hb, hk⟩ := h
        rcases List.mem_cons.1 hb with rfl | hb
        · exact absurd hk ha
        · exact ⟨b, hb, hk⟩
      obtain ⟨b, rest, hp, hk, hp2⟩ := ih h2
      refine ⟨b, a :: rest, ?_, hk, ?_⟩
      · exact (List.Perm.cons a hp).trans (List.Perm.swap b a rest)
      · simp only [specbuf_overwrite, if_neg ha]
        exact (List.Perm.cons a hp2).trans (List.Perm.swap _ a rest)

/-- What one request does to the buffer list, up to the order of the list. -/
theorem specbuf_step (calc_buf : ℚ → List ℚ) (c : GLContext) (hwf : specbuf_wf c) (k : Int)
    (sh : ℚ) :
    (specbuf_get_buffer calc_buf c k sh).ctx.specbuf_used_counter =
      c.specbuf_used_counter + 1 ∧
    ((specbuf_get_buffer calc_buf c k sh).recomputed = true ↔
      ∀ b ∈ c.specbuf_first, b.shininess_i ≠ k) ∧
    ∃ nb rest, (specbuf_get_buffer calc_buf c k sh).ctx.specbuf_first.Perm (nb :: rest) ∧
      nb.shininess_i = k ∧ nb.last_used = c.specbuf_used_counter ∧
      ((c.specbuf_first.Perm rest ∧
          (specbuf_get_buffer calc_buf c k sh).ctx.specbuf_num_buffers =
            c.specbuf_num_buffers + 1 ∧
          c.specbuf_num_buffers < MAX_SPECULAR_BUFFERS ∧
          ∀ b ∈ c.specbuf_first, b.shininess_i ≠ k) ∨
        ∃ b, c.specbuf_first.Perm (b :: rest) ∧
          (specbuf_get_buffer calc_buf c k sh).ctx.specbuf_num_buffers =
            c.specbuf_num_buffers ∧
          (b.shininess_i = k ∨
            ((∀ b2 ∈ c.specbuf_first, b2.shininess_i ≠ k) ∧
              c.specbuf_first.length = MAX_SPECULAR_BUFFERS ∧
              ∀ b2 ∈ c.specbuf_first, b.last_used ≤ b2.last_used))) := by
  obtain ⟨-, -, -, hnum, hlen⟩ := hwf
  unfold specbuf_get_buffer
  cases hf : c.specbuf_first.find? (fun b => b.shininess_i == k) with
  | some found =>
    have hk : found.shininess_i = k := by
      have := List.find?_some hf
      simpa using this
    have hmem : found ∈ c.specbuf_first := List.mem_of_find?_eq_some hf
    obtain ⟨b, rest, hp, hbk, hp2⟩ :=
      specbuf_touch_perm k c.specbuf_used_counter c.specbuf_first ⟨found, hmem, hk⟩
    refine ⟨rfl, ?_, { b with last_used := c.specbuf_used_counter }, rest, hp2, hbk, rfl,
      Or.inr ⟨b, hp, rfl, Or.inl hbk⟩⟩
    constructor
    · intro h
      exact absurd h Bool.false_ne_true
    · intro h
      exact absurd hk (h found hmem)
  | none =>
    have hnone : ∀ b ∈ c.specbuf_first, b.shininess_i ≠ k := by
      intro b hb
      have := List.find?_eq_none.1 hf b hb
      simpa using this
    by_cases hcap : c.specbuf_num_buffers < MAX_SPECULAR_BUFFERS
    · rw [if_pos hcap]
      exact ⟨rfl, ⟨fun _ => hnone, fun _ => rfl⟩, _, c.specbuf_first, List.Perm.refl _, rfl,
        rfl, Or.inl ⟨List.Perm.refl _, rfl, hcap, hnone⟩⟩
    · rw [if_neg hcap]
      cases hm : (c.specbuf_first.map (fun b => b.last_used)).min? with
      | none =>
        exfalso
        rw [List.min?_eq_none_iff, List.map_eq_nil_iff] at hm
        rw [hnum, hm] at hcap
        exact hcap (by decide)
      | some m =>
        obtain ⟨hm1, hm2⟩ := List.min?_eq_some_iff'.1 hm
        obtain ⟨b0, hb0, hb0m⟩ := List.mem_map.1 hm1
        obtain ⟨b, rest, hp, hbm, hp2⟩ := specbuf_overwrite_perm m
          { shininess_i := k, last_used := c.specbuf_used_counter, buf := calc_buf sh }
          c.specbuf_first ⟨b0, hb0, hb0m⟩
        refine ⟨rfl, ⟨fun _ => hnone, fun _ => rfl⟩, _, rest, hp2, rfl, rfl,
          Or.inr ⟨b, hp, rfl, Or.inr ⟨hnone, ?_, ?_⟩⟩⟩
        · omega
        · intro b2 hb2
          rw [hbm]
          exact hm2 _ (List.mem_map.2 ⟨b2, hb2, rfl⟩)

theorem specbuf_wf_of_perm_cons {l rest : List GLSpecBuf} {nb : GLSpecBuf} {cnt num : Nat}
    (hp : l.Perm (nb :: rest))
    (hkeys : (rest.map (fun b => b.shininess_i)).Nodup)
    (hstamps : (rest.map (fun b => b.last_used)).Nodup)
    (hlt : ∀ b ∈ rest, b.last_used < cnt)
    (hk : ∀ b ∈ rest, b.shininess_i ≠ nb.shininess_i)
    (hs : nb.last_used = cnt)
    (hnum : num = rest.length + 1) (hmax : rest.length + 1 ≤ MAX_SPECULAR_BUFFERS) :
    specbuf_wf { specbuf_first := l, specbuf_used_counter := cnt + 1,
                 specbuf_num_buffers := num } := by
  refine ⟨?_, ?_, ?_, ?_, ?_⟩
  · show (l.map (fun b => b.shininess_i)).Nodup
    rw [(hp.map _).nodup_iff, List.map_cons, List.nodup_cons]
    refine ⟨?_, hkeys⟩
    intro hmem
    obtain ⟨b, hb, hbk⟩ := List.mem_map.1 hmem
    exact hk b hb hbk
  · show (l.map (fun b => b.last_used)).Nodup
    rw [(hp.map _).nodup_iff, List.map_cons, List.nodup_cons]
    refine ⟨?_, hstamps⟩
    intro hmem
    obtain ⟨b, hb, hbs⟩ := List.mem_map.1 hmem
    have h1 := hlt b hb
    have h2 : b.last_used = nb.last_used := hbs
    omega
  · intro b hb
    show b.last_used < cnt + 1
    rcases List.mem_cons.1 (hp.mem_iff.1 hb) with rfl | hb
    · omega
    · have := hlt b hb
      omega
  · show num = l.length
    rw [hp.length_eq, List.length_cons]
    exact hnum
  · show l.length ≤ MAX_SPECULAR_BUFFERS
    rw [hp.length_eq, List.length_cons]
    exact hmax

theorem specbuf_step_wf (calc_buf : ℚ → List ℚ) (c : GLContext) (hwf : specbuf_wf c) (k : Int)
    (sh : ℚ) : specbuf_wf (specbuf_get_buffer calc_buf c k sh).ctx := by
  obtain ⟨hcnt, -, nb, rest, hp, hnk, hns, hcase⟩ := specbuf_step calc_buf c hwf k sh
  obtain ⟨hkeys, hstamps, hlt, hnum, hlen⟩ := hwf
  have hctx : (specbuf_get_buffer calc_buf c k sh).ctx =
      { specbuf_first := (specbuf_get_buffer calc_buf c k sh).ctx.specbuf_first,
        specbuf_used_counter := c.specbuf_used_counter + 1,
        specbuf_num_buffers := (specbuf_get_buffer calc_buf c k sh).ctx.specbuf_num_buffers } := by
    rw [← hcnt]
  rw [hctx]
  rcases hcase with ⟨hold, hnum2, hcap, hnone⟩ | ⟨b, hold, hnum2, hb⟩
  · apply specbuf_wf_of_perm_cons hp
    · rw [← (hold.map _).nodup_iff]
      exact hkeys
    · rw [← (hold.map _).nodup_iff]
      exact hstamps
    · intro b hb
      exact hlt b (hold.mem_iff.2 hb)
    · intro b hb
      rw [hnk]
      exact hnone b (hold.mem_iff.2 hb)
    · exact hns
    · rw [hnum2, hnum, hold.length_eq]
    · rw [← hold.length_eq, ← hnum]
      omega
  · have hkeys2 := (hold.map (fun b => b.shininess_i)).nodup_iff.1 hkeys
    have hstamps2 := (hold.map (fun b => b.last_used)).nodup_iff.1 hstamps
    rw [List.map_cons, List.nodup_cons] at hkeys2 hstamps2
    have hlen2 : c.specbuf_first.length = rest.length + 1 := by
      rw [hold.length_eq, List.length_cons]
    apply specbuf_wf_of_perm_cons hp hkeys2.2 hstamps2.2
    · intro b2 hb2
      exact hlt b2 (hold.mem_iff.2 (List.mem_cons_of_mem _ hb2))
    · intro b2 hb2
      rw [hnk]
      rcases hb with hbk | ⟨hnone, -, -⟩
      · intro h
        apply hkeys2.1
        rw [hbk, ← h]
        exact List.mem_map.2 ⟨b2, hb2, rfl⟩
      · exact hnone b2 (hold.mem_iff.2 (List.mem_cons_of_mem _ hb2))
    · exact hns
    · rw [hnum2, hnum, hlen2]
    · rw [← hlen2]
      exact hlen

theorem specbuf_init_wf : specbuf_wf specbuf_init := by
  refine ⟨List.nodup_nil, List.nodup_nil, ?_, rfl, Nat.zero_le _⟩
  intro b hb
  exact absurd hb (List.not_mem_nil b)

theorem specbuf_requests_wf (calc_buf : ℚ → List ℚ) (reqs : List (Int × ℚ)) (c : GLContext)
    (hwf : specbuf_wf c) : specbuf_wf (specbuf_requests calc_buf c reqs) := by
  induction reqs generalizing c with
  | nil => exact hwf
  | cons r rest ih => exact ih _ (specbuf_step_wf calc_buf c hwf r.1 r.2)

theorem specbuf_requests_snoc (calc_buf : ℚ → List ℚ) (c : GLContext) (reqs : List (Int × ℚ))
    (r : Int × ℚ) :
    specbuf_requests calc_buf c (reqs ++ [r]) =
      (specbuf_get_buffer calc_buf (specbuf_requests calc_buf c reqs) r.1 r.2).ctx := by
  unfold specbuf_requests
  rw [List.foldl_append]
  rfl

theorem exists_key_not_mem (l : List GLSpecBuf) (ks : List Int)
    (hnd : (l.map (fun b => b.shininess_i)).Nodup) (hlt : ks.length < l.length) :
    ∃ b ∈ l, b.shininess_i ∉ ks := by
  by_contra h
  push_neg at h
  have hsub : l.map (fun b => b.shininess_i) ⊆ ks := by
    intro k hk
    obtain ⟨b, hb, rfl⟩ := List.mem_map.1 hk
    exact h b hb
  have := (List.subperm_of_subset hnd hsub).length_le
  rw [List.length_map] at this
  omega

theorem mem_of_getElem_some {α : Type} {l : List α} {i : Nat} {x : α} (h : l[i]? = some x) :
    x ∈ l := by
  obtain ⟨hi, rfl⟩ := List.getElem?_eq_some_iff.1 h
  exact List.getElem_mem hi

/-- After at most `MAX_SPECULAR_BUFFERS` requests with distinct keys, every requested key
is cached, stamped with its position in the request sequence. -/
theorem specbuf_recent (calc_buf : ℚ → List ℚ) (c0 : GLContext) (hwf : specbuf_wf c0)
    (reqs : List (Int × ℚ)) :
    (reqs.map Prod.fst).Nodup → reqs.length ≤ MAX_SPECULAR_BUFFERS →
      (specbuf_requests calc_buf c0 reqs).specbuf_used_counter =
        c0.specbuf_used_counter + reqs.length ∧
      ∀ i x, reqs[i]? = some x →
        specbuf_entry (specbuf_requests calc_buf c0 reqs) x.1 (c0.specbuf_used_counter + i) := by
  induction reqs using List.reverseRecOn with
  | nil =>
    intro _ _
    refine ⟨rfl, ?_⟩
    intro i x hix
    simp at hix
  | append_singleton L y ih =>
    intro hnd hlen
    rw [List.map_append, List.nodup_append] at hnd
    obtain ⟨hndL, -, hdisj⟩ := hnd
    rw [List.length_append, List.length_singleton] at hlen
    obtain ⟨ihc, ihe⟩ := ih hndL (by omega)
    rw [specbuf_requests_snoc]
    have hwfc := specbuf_requests_wf calc_buf L c0 hwf
    obtain ⟨hcnt, -, nb, rest, hp, hnk, hns, hcase⟩ :=
      specbuf_step calc_buf (specbuf_requests calc_buf c0 L) hwfc y.1 y.2
    constructor
    · rw [hcnt, ihc, List.length_append, List.length_singleton, Nat.add_assoc]
    · intro i x hix
      by_cases hi : i < L.length
      · rw [List.getElem?_append_left hi] at hix
        obtain ⟨b, hb, hbk, hbs⟩ := ihe i x hix
        have hxL : x.1 ∈ L.map Prod.fst := List.mem_map.2 ⟨x, mem_of_getElem_some hix, rfl⟩
        have hxy : x.1 ≠ y.1 := by
          intro h
          exact hdisj hxL (by rw [h]; exact List.mem_singleton.2 rfl)
        have hbrest : b ∈ rest := by
          rcases hcase with ⟨hold, -⟩ | ⟨b0, hold, -, hb0⟩
          · exact hold.mem_iff.1 hb
          · rcases List.mem_cons.1 (hold.mem_iff.1 hb) with rfl | h
            · exfalso
              rcases hb0 with hk | ⟨-, hfull, hmin⟩
              · exact hxy (hbk.symm.trans hk)
              · obtain ⟨b1, hb1, hb1k⟩ := exists_key_not_mem
                  (specbuf_requests calc_buf c0 L).specbuf_first (L.map Prod.fst) hwfc.1
                  (by rw [List.length_map, hfull]; omega)
                have h1 := hmin b1 hb1
                have h2 := hwfc.2.2.1 b1 hb1
                rw [ihc] at h2
                have hj : b1.last_used - c0.specbuf_used_counter < L.length := by omega
                obtain ⟨b2, hb2, hb2k, hb2s⟩ := ihe _ _ (List.getElem?_eq_getElem hj)
                have heq : b2 = b1 := by
                  apply List.inj_on_of_nodup_map hwfc.2.1 hb2 hb1
                  show b2.last_used = b1.last_used
                  omega
                apply hb1k
                rw [← heq, hb2k]
                exact List.mem_map.2 ⟨_, List.getElem_mem hj, rfl⟩
            · exact h
        exact ⟨b, hp.mem_iff.2 (List.mem_cons_of_mem _ hbrest), hbk, hbs⟩
      · have hlt := (List.getElem?_eq_some_iff.1 hix).1
        rw [List.length_append, List.length_singleton] at hlt
        have hiL : i = L.length := by omega
        subst hiL
        rw [List.getElem?_concat_length] at hix
        cases hix
        exact ⟨nb, hp.mem_iff.2 (List.mem_cons_self _ _), hnk, hns.trans ihc⟩

/-- C7: in a context reached from the initial one by any earlier requests, request
`MAX_SPECULAR_BUFFERS` distinct keys `k1 :: ks` in order (context `c1`), then a further
distinct key `kn` (context `c2`). The request for `kn` is a miss; the buffer of `c1` with
the smallest `last_used` stamp is the one holding `k1`, and `c2` no longer holds `k1`: a
request for `k1` in `c2` is a miss, while a request for any key of `ks` is a hit. Whatever
the requests, the number of buffers never exceeds `MAX_SPECULAR_BUFFERS`. -/
theorem specbuf_lru_eviction (calc_buf : ℚ → List ℚ) (history : List (Int × ℚ))
    (k1 : Int × ℚ) (ks : List (Int × ℚ)) (kn : Int × ℚ) (c1 c2 : GLContext)
    (hlen : (k1 :: ks).length = MAX_SPECULAR_BUFFERS)
    (hnd : ((k1 :: ks ++ [kn]).map Prod.fst).Nodup)
    (hc1 : c1 = specbuf_requests calc_buf (specbuf_requests calc_buf specbuf_init history)
      (k1 :: ks))
    (hc2 : c2 = (specbuf_get_buffer calc_buf c1 kn.1 kn.2).ctx) :
    (specbuf_get_buffer calc_buf c1 kn.1 kn.2).recomputed = true ∧
    (∃ b ∈ c1.specbuf_first, b.shininess_i = k1.1 ∧
      (∀ b2 ∈ c1.specbuf_first, b.last_used ≤ b2.last_used) ∧
      ∀ b3 ∈ c2.specbuf_first, b3.shininess_i ≠ k1.1) ∧
    (∀ sh, (specbuf_get_buffer calc_buf c2 k1.1 sh).recomputed = true) ∧
    (∀ x ∈ ks, ∀ sh, (specbuf_get_buffer calc_buf c2 x.1 sh).recomputed = false) ∧
    (∀ reqs, (specbuf_requests calc_buf specbuf_init reqs).specbuf_num_buffers ≤
        MAX_SPECULAR_BUFFERS ∧
      (specbuf_requests calc_buf specbuf_init reqs).specbuf_first.length ≤
        MAX_SPECULAR_BUFFERS) := by
  have hwf0 := specbuf_requests_wf calc_buf history specbuf_init specbuf_init_wf
  have hwf1 : specbuf_wf c1 := by
    rw [hc1]
    exact specbuf_requests_wf calc_buf _ _ hwf0
  have hwf2 : specbuf_wf c2 := by
    rw [hc2]
    exact specbuf_step_wf calc_buf c1 hwf1 _ _
  rw [List.map_append, List.nodup_append] at hnd
  obtain ⟨hndk, -, hdisj⟩ := hnd
  obtain ⟨hcnt, hent⟩ := specbuf_recent calc_buf _ hwf0 (k1 :: ks) hndk (le_of_eq hlen)
  rw [← hc1] at hcnt hent
  -- the keys held by `c1` are exactly the requested ones
  have hsub : (k1 :: ks).map Prod.fst ⊆ c1.specbuf_first.map (fun b => b.shininess_i) := by
    intro k hk
    obtain ⟨x, hx, rfl⟩ := List.mem_map.1 hk
    obtain ⟨i, hi⟩ := List.mem_iff_getElem?.1 hx
    obtain ⟨b, hb, hbk, -⟩ := hent i x hi
    exact List.mem_map.2 ⟨b, hb, hbk⟩
  have hperm := (List.subperm_of_subset hndk hsub).perm_of_length_le
    (by rw [List.length_map, List.length_map, hlen]; exact hwf1.2.2.2.2)
  have hfull : c1.specbuf_first.length = MAX_SPECULAR_BUFFERS := by
    have := hperm.length_eq
    rw [List.length_map, List.length_map, hlen] at this
    exact this.symm
  have hstamp : ∀ b ∈ c1.specbuf_first,
      (specbuf_requests calc_buf specbuf_init history).specbuf_used_counter ≤ b.last_used := by
    intro b hb
    have hk : b.shininess_i ∈ (k1 :: ks).map Prod.fst :=
      hperm.mem_iff.2 (List.mem_map.2 ⟨b, hb, rfl⟩)
    obtain ⟨x, hx, hxk⟩ := List.mem_map.1 hk
    obtain ⟨i, hi⟩ := List.mem_iff_getElem?.1 hx
    obtain ⟨b2, hb2, hb2k, hb2s⟩ := hent i x hi
    have heq : b2 = b := List.inj_on_of_nodup_map hwf1.1 hb2 hb (hb2k.trans hxk)
    rw [← heq, hb2s]
    exact Nat.le_add_right _ _
  obtain ⟨bo, hbo, hbok, hbos⟩ := hent 0 k1 List.getElem?_cons_zero
  have hknone : ∀ b ∈ c1.specbuf_first, b.shininess_i ≠ kn.1 := by
    intro b hb h
    have hk : b.shininess_i ∈ (k1 :: ks).map Prod.fst :=
      hperm.mem_iff.2 (List.mem_map.2 ⟨b, hb, rfl⟩)
    exact hdisj hk (by rw [h]; exact List.mem_singleton.2 rfl)
  obtain ⟨-, hrec, nb, rest, hp, hnk, hns, hcase⟩ := specbuf_step calc_buf c1 hwf1 kn.1 kn.2
  rw [← hc2] at hp
  have hk1n : k1.1 ≠ kn.1 := by
    intro h
    exact hdisj (List.mem_map.2 ⟨k1, List.mem_cons_self _ _, rfl⟩)
      (by rw [h]; exact List.mem_singleton.2 rfl)
  -- the request for `kn` overwrites the buffer of `k1`
  have hev : c1.specbuf_first.Perm (bo :: rest) := by
    rcases hcase with ⟨-, -, hcap, -⟩ | ⟨b, hold, -, hb⟩
    · rw [hwf1.2.2.2.1, hfull] at hcap
      exact absurd hcap (lt_irrefl _)
    · have hbmem : b ∈ c1.specbuf_first := hold.mem_iff.2 (List.mem_cons_self _ _)
      rcases hb with hbk | ⟨-, -, hmin⟩
      · exact absurd hbk (hknone b hbmem)
      · have h1 := hmin bo hbo
        have h2 := hstamp b hbmem
        have heq : b = bo := by
          apply List.inj_on_of_nodup_map hwf1.2.1 hbmem hbo
          show b.last_used = bo.last_used
          omega
        rw [← heq]
        exact hold
  have hkeys := (hev.map (fun b => b.shininess_i)).nodup_iff.1 hwf1.1
  have hstamps := (hev.map (fun b => b.last_used)).nodup_iff.1 hwf1.2.1
  rw [List.map_cons, List.nodup_cons] at hkeys hstamps
  have hgone : ∀ b3 ∈ c2.specbuf_first, b3.shininess_i ≠ k1.1 := by
    intro b3 hb3 h
    rcases List.mem_cons.1 (hp.mem_iff.1 hb3) with rfl | hb3
    · exact hk1n (h.symm.trans hnk)
    · apply hkeys.1
      rw [hbok, ← h]
      exact List.mem_map.2 ⟨b3, hb3, rfl⟩
  refine ⟨hrec.2 hknone, ⟨bo, hbo, hbok, ?_, hgone⟩, ?_, ?_, ?_⟩
  · intro b2 hb2
    rw [hbos]
    exact hstamp b2 hb2
  · intro sh
    exact (specbuf_step calc_buf c2 hwf2 k1.1 sh).2.1.2 hgone
  · intro x hx sh
    obtain ⟨i, hi⟩ := List.mem_iff_getElem?.1 hx
    obtain ⟨b, hb, hbk, hbs⟩ := hent (i + 1) x (by rw [List.getElem?_cons_succ]; exact hi)
    have hbrest : b ∈ rest := by
      rcases List.mem_cons.1 (hev.mem_iff.1 hb) with rfl | h
      · omega
      · exact h
    have hb2 : b ∈ c2.specbuf_first := hp.mem_iff.2 (List.mem_cons_of_mem _ hbrest)
    cases hr : (specbuf_get_buffer calc_buf c2 x.1 sh).recomputed
    · rfl
    · exact absurd hbk ((specbuf_step calc_buf c2 hwf2 x.1 sh).2.1.1 hr b hb2)
  · intro reqs
    have hwf := specbuf_requests_wf calc_buf reqs specbuf_init specbuf_init_wf
    exact ⟨hwf.2.2.2.1 ▸ hwf.2.2.2.2, hwf.2.2.2.2⟩

theorem specbuf_lru_eviction_witness :
    [((1 : Int), (1 : ℚ)), (2, 2), (3, 3), (4, 4), (5, 5), (6, 6), (7, 7), (8, 8)].length =
        MAX_SPECULAR_BUFFERS ∧
      (specbuf_get_buffer (fun _ => [])
        (specbuf_requests (fun _ => []) (specbuf_requests (fun _ => []) specbuf_init [(3, 3)])
          [(1, 1), (2, 2), (3, 3), (4, 4), (5, 5), (6, 6), (7, 7), (8, 8)]) 9 9).recomputed =
        true ∧
      (specbuf_get_buffer (fun _ => [])
        (specbuf_get_buffer (fun _ => [])
          (specbuf_requests (fun _ => []) (specbuf_requests (fun _ => []) specbuf_init [(3, 3)])
            [(1, 1), (2, 2), (3, 3), (4, 4), (5, 5), (6, 6), (7, 7), (8, 8)]) 9 9).ctx
        1 1).recomputed = true ∧
      (specbuf_get_buffer (fun _ => [])
        (specbuf_get_buffer (fun _ => [])
          (specbuf_requests (fun _ => []) (specbuf_requests (fun _ => []) specbuf_init [(3, 3)])
            [(1, 1), (2, 2), (3, 3), (4, 4), (5, 5), (6, 6), (7, 7), (8, 8)]) 9 9).ctx
        2 2).recomputed = false :=
  ⟨by decide,
    (specbuf_lru_eviction (fun _ => []) [(3, 3)] (1, 1)
      [(2, 2), (3, 3), (4, 4), (5, 5), (6, 6), (7, 7), (8, 8)] (9, 9) _ _ (by decide)
      (by decide) rfl rfl).1,
    (specbuf_lru_eviction (fun _ => []) [(3, 3)] (1, 1)
      [(2, 2), (3, 3), (4, 4), (5, 5), (6, 6), (7, 7), (8, 8)] (9, 9) _ _ (by decide)
      (by decide) rfl rfl).2.2.1 1,
    (specbuf_lru_eviction (fun _ => []) [(3, 3)] (1, 1)
      [(2, 2), (3, 3), (4, 4), (5, 5), (6, 6), (7, 7), (8, 8)] (9, 9) _ _ (by decide)
      (by decide) rfl rfl).2.2.2.1 (2, 2) (by simp) 2⟩

end TinyGLES
